import Mathlib

/-!
Verification of the `rote` task runner (`src/components/rote/runner.rs`).

The development shallowly embeds the runner's data model and its two core
algorithms:

* `resolveTask` / `resolveAll` — the recursive target resolver
  (`Runner::resolve_task`, runner.rs lines 354-382), which expands a target
  name into a dependency graph, looking up registered tasks first and pattern
  rules second;
* a coordinator/worker machine (`MState`, `step`, `runMachine`) — the parallel
  executor of `Runner::run` (runner.rs lines 202-352), with the interleaving
  of worker threads and channel deliveries driven by an explicit oracle
  (`Choice` list), so that theorems quantifying over all oracles cover all
  thread interleavings.

Parts of the repository that `runner.rs` uses but whose sources are not
available (the `graph` module, and the scripting layer's `Environment`,
`Task`, and `Rule` types) are modelled from the specification; each such
definition carries a doc comment saying so.
-/

deriving instance DecidableEq for Except

namespace Rote

/-- A task: named unit of work with declared dependency names.  The action is
kept external (machine parameters decide an action's success), mirroring the
opaque `Task::run` handle of the scripting layer. -/
structure Task where
  name : String
  dependencies : List String
deriving DecidableEq, Repr

/-- Modelled from the spec: a `Rule` (scripting layer, not under `src/`) is a
pattern-based task template; `matches` decides whether the pattern fully
matches a name, and `createTask` materialises a task for a concrete matching
name (`none` models a failed materialisation, i.e. `create_task` returning
`Err`). -/
structure Rule where
  pattern : String
  matchesName : String → Bool
  createTask : String → Option Task

/-- Modelled from the spec: the scripting `Environment`'s registry contents
(not under `src/`): the named tasks and the ordered rule list produced by
loading the build file. -/
structure Env where
  tasks : List Task
  rules : List Rule

/-- Modelled from the spec: `Environment::get_task` (scripting layer, not
under `src/`): exact-name lookup among the registered named tasks. -/
def Env.getTask (env : Env) (name : String) : Option Task :=
  env.tasks.find? (fun t => t.name = name)

/-- Modelled from the spec: the dependency graph (`graph.rs` is not under
`src/`): nodes are tasks identified by name, kept in insertion order with no
duplicate names. -/
abbrev Graph := List Task

/-- The empty graph (`Graph::new`). -/
def Graph.nil : Graph := []

/-- Modelled from the spec: `Graph::contains` — membership by task name. -/
def Graph.contains (g : Graph) (name : String) : Bool :=
  g.any (fun t => t.name = name)

/-- Modelled from the spec: `Graph::insert` — append a node. -/
def Graph.insert (g : Graph) (t : Task) : Graph :=
  g ++ [t]

/-- Modelled from the spec: `Graph::get` — find a node by name. -/
def Graph.get (g : Graph) (name : String) : Option Task :=
  g.find? (fun t => t.name = name)

/-- Errors `Runner::run` can return (`Box<Error>` values in the source). -/
inductive RunError
  | unknownTask (name : String)
  | cycle
  | loadFailure (msg : String)
deriving DecidableEq, Repr

/-- Outcome of a call to `Runner::resolve_task`: normal return, error return
via `try!`, a thread panic (an `unwrap` failing), or out of modelling fuel. -/
inductive RStatus
  | ok
  | err (e : RunError)
  | panicked (name : String)
  | fuelOut
deriving DecidableEq, Repr

/-- Result of `Runner::resolve_task`: the status, the graph as mutated so far
(the Rust code mutates `self.graph` in place, so partial updates survive an
error), and the trace of names for which a registry/rule lookup was performed
(the body of the `if !self.graph.contains(&name)` block). -/
structure RRes where
  status : RStatus
  graph : Graph
  lookups : List String
deriving Repr

/-- The dependency loop at the end of `Runner::resolve_task` (runner.rs lines
375-379): for each declared dependency not yet in the graph, resolve it,
propagating the first error (`try!`). `step` is the recursive call. -/
def depsFold (step : Graph → String → RRes) : List String → RRes → RRes
  | [], acc => acc
  | d :: rest, acc =>
    match acc.status with
    | .ok =>
      if acc.graph.contains d then
        depsFold step rest acc
      else
        let r := step acc.graph d
        depsFold step rest ⟨r.status, r.graph, acc.lookups ++ r.lookups⟩
    | _ => acc

/-- Transcription of `Runner::resolve_task` (runner.rs lines 354-382).  If the name is not yet
in the graph: try the exact-name registry lookup first; otherwise scan the
rules in order for the first whose pattern matches and materialise a task from
it (`rule.create_task(name).unwrap()` — a failed materialisation panics);
otherwise return the "no matching task or rule" error.  Then recurse on the
dependencies of the graph node (`self.graph.get(name).unwrap()`).  `fuel`
bounds the recursion depth (the Rust recursion terminates because the graph
grows; any execution is reproduced with enough fuel). -/
def resolveTask (env : Env) : Nat → Graph → String → RRes
  | 0, g, _ => ⟨.fuelOut, g, []⟩
  | fuel + 1, g, name =>
    let looked : RRes ⊕ (Graph × List String) :=
      if g.contains name then
        .inr (g, [])
      else
        match env.getTask name with
        | some task => .inr (g.insert task, [name])
        | none =>
          match env.rules.find? (fun r => r.matchesName name) with
          | some rule =>
            match rule.createTask name with
            | some task => .inr (g.insert task, [name])
            | none => .inl ⟨.panicked name, g, [name]⟩
          | none => .inl ⟨.err (.unknownTask name), g, [name]⟩
    match looked with
    | .inl r => r
    | .inr (g₁, lk) =>
      match g₁.get name with
      | some t =>
        let r := depsFold (fun g' d => resolveTask env fuel g' d) t.dependencies ⟨.ok, g₁, lk⟩
        r
      | none => ⟨.panicked name, g₁, lk⟩

/-- The loop over requested targets at the top of `Runner::run` (runner.rs
lines 203-206): resolve each target in turn, stopping at the first error. -/
def resolveAll (env : Env) (fuel : Nat) : Graph → List String → RRes
  | g, [] => ⟨.ok, g, []⟩
  | g, n :: rest =>
    let r := resolveTask env fuel g n
    match r.status with
    | .ok =>
      let r' := resolveAll env fuel r.graph rest
      ⟨r'.status, r'.graph, r.lookups ++ r'.lookups⟩
    | s => ⟨s, r.graph, r.lookups⟩

/-- Outcome of the per-task lookup a worker performs (runner.rs lines
246-261): a task found (named, or materialised from the first matching rule),
a panic from `rule.create_task(name).unwrap()` failing, or the explicit
`panic!("no matching task or rule for '{}'", name)`. -/
inductive LookupResult
  | found (t : Task)
  | rulePanic
  | noMatchPanic
deriving Repr

/-- The worker-side task lookup (runner.rs lines 246-261): exact registered
name first; on a miss, the first rule whose pattern matches the name. -/
def workerLookup (env : Env) (name : String) : LookupResult :=
  match env.getTask name with
  | some task => .found task
  | none =>
    match env.rules.find? (fun r => r.matchesName name) with
    | some rule =>
      match rule.createTask name with
      | some task => .found task
      | none => .rulePanic
    | none => .noMatchPanic

/-- Recogniser for `LookupResult.found`. -/
def LookupResult.isFound : LookupResult → Bool
  | .found _ => true
  | _ => false

/-- Observable events of one execution of `Runner::run`'s executor part:
a dispatch (a send on a worker's work channel, with the progress index
computed at runner.rs line 327), the progress line printed by a worker
(runner.rs line 243), an action invocation (`task.run()`, line 265), the
dry-run log line (line 270), the coordinator marking a task completed
(lines 295-298), and a worker panic (lines 259, 267). -/
inductive Event
  | dispatch (name : String) (idx : Nat) (w : Nat)
  | progress (idx : Nat) (total : Nat) (name : String)
  | invoked (name : String)
  | wouldRun (name : String)
  | completedMark (name : String)
  | panicked (w : Nat) (name : String)
deriving DecidableEq, Repr

/-- Immutable data of one `Runner::run` execution: the environment each
worker loads, `task_count` (runner.rs line 210), the `all_tasks` name set
(line 286), the dry-run flag, the action outcomes (true = `task.run()`
returns `Ok`), and the number of worker threads `thread_count`
(line 211). -/
structure MCtx where
  env : Env
  total : Nat
  allTasks : List String
  dry : Bool
  act : String → Bool
  W : Nat

/-- Mutable state of the executor: the remaining schedule deque, the
coordinator's `completed_tasks` and `current_tasks` bookkeeping and
`free_threads` set, each worker's private work-channel queue (`inbox`), the
multiset of ready signals sent but not yet received on the shared channel
(`chan`), whether each worker has started (sent its initial ready signal)
and is still alive (has not panicked), and the global event trace. -/
structure MState where
  schedule : List Task
  completed : List String
  current : List (Option String)
  free : List Nat
  inbox : List (List (String × Nat))
  chan : List Nat
  started : List Bool
  alive : List Bool
  trace : List Event
deriving Repr

/-- Initial executor state (runner.rs lines 216-229, 283-286): empty
bookkeeping, all `thread_count` workers inserted into `free_threads` at
spawn time, empty channels, no worker yet past its startup send. -/
def initState (ctx : MCtx) (schedule : List Task) : MState :=
  { schedule := schedule
    completed := []
    current := List.replicate ctx.W none
    free := List.range ctx.W
    inbox := List.replicate ctx.W []
    chan := []
    started := List.replicate ctx.W false
    alive := List.replicate ctx.W true
    trace := [] }

/-- A worker's startup step (runner.rs lines 230-239): after creating its
environment it sends its `thread_id` on the shared ready channel, before
entering its receive loop. -/
def workerStart (s : MState) (w : Nat) : MState :=
  if s.started.getD w true then s
  else { s with started := s.started.set w true, chan := s.chan ++ [w] }

/-- A worker processing the next message from its work channel (runner.rs
lines 242-277): print the progress line, look the task up (named first, then
first matching rule — panicking on a miss or a failed materialisation), run
the action unless dry-run (an action error is logged and the worker panics
without sending a ready signal), then send `thread_id` on the ready
channel. -/
def workerRun (ctx : MCtx) (w : Nat) (s : MState) : MState :=
  if s.started.getD w false && s.alive.getD w false then
    match s.inbox.getD w [] with
    | [] => s
    | (name, idx) :: rest =>
      match workerLookup ctx.env name with
      | .found task =>
        if ctx.dry then
          { s with
            inbox := s.inbox.set w rest
            trace := (s.trace ++ [Event.progress idx ctx.total name]) ++
              [Event.wouldRun task.name]
            chan := s.chan ++ [w] }
        else if ctx.act name then
          { s with
            inbox := s.inbox.set w rest
            trace := (s.trace ++ [Event.progress idx ctx.total name]) ++
              [Event.invoked name]
            chan := s.chan ++ [w] }
        else
          { s with
            inbox := s.inbox.set w rest
            trace := ((s.trace ++ [Event.progress idx ctx.total name]) ++
              [Event.invoked name]) ++ [Event.panicked w name]
            alive := s.alive.set w false }
      | .rulePanic =>
        { s with
          inbox := s.inbox.set w rest
          trace := (s.trace ++ [Event.progress idx ctx.total name]) ++
            [Event.panicked w name]
          alive := s.alive.set w false }
      | .noMatchPanic =>
        { s with
          inbox := s.inbox.set w rest
          trace := (s.trace ++ [Event.progress idx ctx.total name]) ++
            [Event.panicked w name]
          alive := s.alive.set w false }
  else s

/-- The inner `'schedule` loop of the coordinator (runner.rs lines 303-340):
runs at most `free_threads.len()` times (evaluated once at entry); stops when
the schedule is empty or the front task has an in-schedule dependency not yet
marked completed; otherwise pops the front task, picks some free worker
(`free_threads.iter().next()` — arbitrary, resolved here by the oracle list
`sel`), and sends `(name, task_count - schedule.len())` on its work channel;
a failed send (worker dead) is only trace-logged and the popped task is
dropped. -/
def dispatchLoop (ctx : MCtx) : Nat → List Nat → MState → MState
  | 0, _, s => s
  | count + 1, sel, s =>
    match s.schedule with
    | [] => s
    | front :: rest =>
      if front.dependencies.any
          (fun d => ctx.allTasks.contains d && !(s.completed.contains d)) then
        s
      else if s.free.isEmpty then
        { s with schedule := rest }
      else if s.alive.getD (s.free.getD ((sel.headD 0) % s.free.length) 0) false then
        dispatchLoop ctx count sel.tail
          { s with
            schedule := rest
            inbox := s.inbox.set (s.free.getD ((sel.headD 0) % s.free.length) 0)
              ((s.inbox.getD (s.free.getD ((sel.headD 0) % s.free.length) 0) []) ++
                [(front.name, ctx.total - rest.length)])
            current := s.current.set (s.free.getD ((sel.headD 0) % s.free.length) 0)
              (some front.name)
            free := s.free.erase (s.free.getD ((sel.headD 0) % s.free.length) 0)
            trace := s.trace ++ [Event.dispatch front.name (ctx.total - rest.length)
              (s.free.getD ((sel.headD 0) % s.free.length) 0)] }
      else
        dispatchLoop ctx count sel.tail { s with schedule := rest }

/-- Set-insertion into the `free_threads` set (`HashSet::insert`,
runner.rs line 291). -/
def insertFree (free : List Nat) (wid : Nat) : List Nat :=
  if free.contains wid then free else free ++ [wid]

/-- One iteration of the coordinator's `while !schedule.is_empty()` loop
(runner.rs lines 288-341): block on the shared ready channel (disabled when
no signal is pending; `pick` chooses which pending signal arrives first),
mark the receiving worker free, mark its current task (if any) completed,
then run the inner dispatch loop. -/
def coordIter (ctx : MCtx) (pick : Nat) (sel : List Nat) (s : MState) : MState :=
  if s.schedule.isEmpty then s
  else if s.chan.isEmpty then s
  else
    match s.current.getD (s.chan.getD (pick % s.chan.length) 0) none with
    | some t =>
      dispatchLoop ctx
        (insertFree s.free (s.chan.getD (pick % s.chan.length) 0)).length sel
        { s with
          chan := s.chan.eraseIdx (pick % s.chan.length)
          free := insertFree s.free (s.chan.getD (pick % s.chan.length) 0)
          current := s.current.set (s.chan.getD (pick % s.chan.length) 0) none
          completed := s.completed ++ [t]
          trace := s.trace ++ [Event.completedMark t] }
    | none =>
      dispatchLoop ctx
        (insertFree s.free (s.chan.getD (pick % s.chan.length) 0)).length sel
        { s with
          chan := s.chan.eraseIdx (pick % s.chan.length)
          free := insertFree s.free (s.chan.getD (pick % s.chan.length) 0) }

/-- One scheduling decision of the concurrent system: which thread makes
progress next, and (for the coordinator) which pending ready signal the
channel delivers and which free workers the `HashSet` iterator yields. -/
inductive Choice
  | wstart (w : Nat)
  | wrun (w : Nat)
  | citer (pick : Nat) (sel : List Nat)

/-- Apply one scheduling decision. -/
def step (ctx : MCtx) (s : MState) : Choice → MState
  | .wstart w => workerStart s w
  | .wrun w => workerRun ctx w s
  | .citer pick sel => coordIter ctx pick sel s

/-- Run the executor under a given interleaving oracle.  Quantifying over
`choices` covers every interleaving of worker and coordinator steps and
every channel-delivery and worker-selection order. -/
def runMachine (ctx : MCtx) (choices : List Choice) (s : MState) : MState :=
  choices.foldl (step ctx) s

/-- The (name, index) pair of a dispatch event. -/
def dispatchKey : Event → Option (String × Nat)
  | .dispatch n i _ => some (n, i)
  | _ => none

/-- The (name, index) pair of a printed progress line. -/
def progressKey : Event → Option (String × Nat)
  | .progress i _ n => some (n, i)
  | _ => none

/-- The name of an action-invocation event. -/
def invokedKey : Event → Option String
  | .invoked n => some n
  | _ => none

/-- The (name, index) pairs of the dispatch events of a trace, in order. -/
def dispatchesOf (tr : List Event) : List (String × Nat) :=
  tr.filterMap dispatchKey

/-- The (name, index) pairs of the printed progress lines of a trace. -/
def progressesOf (tr : List Event) : List (String × Nat) :=
  tr.filterMap progressKey

/-- The names whose action was invoked, in trace order. -/
def invokedOf (tr : List Event) : List String :=
  tr.filterMap invokedKey

/-- All messages sitting in the workers' work channels. -/
def inboxJoin (s : MState) : List (String × Nat) :=
  s.inbox.flatten

/-- Modelled from the spec: a node is removable in the Kahn peeling when
every declared dependency has already been peeled (equivalently, is no
longer among the remaining nodes). -/
def removable (remaining : List Task) (t : Task) : Bool :=
  t.dependencies.all (fun d => !(remaining.any (fun u => u.name = d)))

/-- Modelled from the spec: iterative Kahn-style peeling — repeatedly
remove the first (insertion-order) node with satisfied dependencies; if
nodes remain and none is removable, report a cycle. -/
def kahnAux : Nat → List Task → List Task → Except RunError (List Task)
  | _, [], acc => .ok acc.reverse
  | 0, _ :: _, _ => .error .cycle
  | fuel + 1, remaining, acc =>
    match remaining.find? (removable remaining) with
    | some t => kahnAux fuel (remaining.erase t) (t :: acc)
    | none => .error .cycle

/-- Modelled from the spec: topological ordering of the graph. -/
def Graph.topo (g : Graph) : Except RunError (List Task) :=
  kahnAux g.length g []

/-- Modelled from the spec: the dirty set, computed in topological order —
a node is dirty iff it is not fresh or one of its declared dependencies is
dirty. -/
def dirtyFold (fresh : Task → Bool) (ordered : List Task) : List String :=
  ordered.foldl
    (fun dirty t =>
      if !(fresh t) || t.dependencies.any (fun d => dirty.contains d) then
        dirty ++ [t.name]
      else dirty) []

/-- Modelled from the spec: `Graph::solve(respect_freshness)` (`graph.rs` is
not under `src/`) — topological order by Kahn peeling (cycle is an error),
then restricted to dirty nodes when freshness is respected. -/
def Graph.solve (g : Graph) (respectFreshness : Bool) (fresh : Task → Bool) :
    Except RunError (List Task) :=
  match g.topo with
  | .error e => .error e
  | .ok ordered =>
    if respectFreshness then
      .ok (ordered.filter (fun t => (dirtyFold fresh ordered).contains t.name))
    else .ok ordered

/-- The default job count set in `Runner::new` (runner.rs line 92):
`cmp::max(1, num_cpus::get() - 1)`; `num_cpus::get()` is at least 1, so the
`usize` subtraction agrees with truncated `Nat` subtraction. -/
def defaultJobs (cpuCount : Nat) : Nat := max 1 (cpuCount - 1)

/-- The execution context `Runner::run` builds for a solved schedule
(runner.rs lines 210-211, 286): `task_count`, the `all_tasks` name set, and
`thread_count = min(jobs, task_count)`. -/
def mkCtx (env : Env) (schedule : List Task) (jobs : Nat) (dry : Bool)
    (act : String → Bool) : MCtx :=
  { env := env
    total := schedule.length
    allTasks := schedule.map (fun t => t.name)
    dry := dry
    act := act
    W := min jobs schedule.length }

/-- Overall outcome of one call of `Runner::run`: aborted with an error
before any worker thread was spawned; panicked during resolution; ran the
executor with `workers` spawned threads, ending in `final` (after which the
source returns `Ok(())` unconditionally, runner.rs lines 343-351); or the
model ran out of fuel. -/
inductive RunResult
  | aborted (e : RunError)
  | panickedRun (name : String)
  | outOfFuel
  | executed (workers : Nat) (final : MState)

/-- Number of worker threads spawned in this run. -/
def RunResult.spawnedWorkers : RunResult → Nat
  | .executed w _ => w
  | _ => 0

/-- The executor events of this run (none when the run aborted early). -/
def RunResult.events : RunResult → List Event
  | .executed _ f => f.trace
  | _ => []

/-- The value `Runner::run` returns: the propagated error when it aborted
before the executor; `Ok(())` when the scheduling loop was entered and
exited (runner.rs lines 343-351 return `Ok(())` unconditionally — worker
panics observed at `join` are only trace-logged); `none` when the run
itself panicked. -/
def RunResult.returnValue : RunResult → Option (Except RunError Unit)
  | .aborted e => some (.error e)
  | .executed _ _ => some (.ok ())
  | _ => none

/-- Transcription of `Runner::run` (runner.rs lines 202-352): resolve every
requested target (`try!` aborts on the first error), solve the graph into a
schedule (`try!` aborts on error), then spawn `thread_count` workers and run
the coordinator loop under the interleaving oracle. -/
def runEmbed (env : Env) (fuel : Nat) (roots : List String) (jobs : Nat)
    (alwaysRun : Bool) (fresh : Task → Bool) (dry : Bool) (act : String → Bool)
    (choices : List Choice) : RunResult :=
  let r := resolveAll env fuel Graph.nil roots
  match r.status with
  | .ok =>
    match r.graph.solve (!alwaysRun) fresh with
    | .ok schedule =>
      let ctx := mkCtx env schedule jobs dry act
      .executed ctx.W (runMachine ctx choices (initState ctx schedule))
    | .error e => .aborted e
  | .err e => .aborted e
  | .panicked n => .panickedRun n
  | .fuelOut => .outOfFuel

/-- The runner façade as driven by `main` (main.rs lines 151-181 in the
earlier-revision `main.rs` under `src/`, runner.rs lines 154-160): the build
file is loaded first; a load failure aborts before `run` is entered, so
before any worker exists. -/
def runnerLoadAndRun (loadResult : Except RunError Env) (fuel : Nat)
    (roots : List String) (jobs : Nat) (alwaysRun : Bool) (fresh : Task → Bool)
    (dry : Bool) (act : String → Bool) (choices : List Choice) : RunResult :=
  match loadResult with
  | .error e => .aborted e
  | .ok env => runEmbed env fuel roots jobs alwaysRun fresh dry act choices

/-! ### Basic lemmas about the graph container and registry lookup -/

lemma Graph.contains_true_iff (g : Graph) (n : String) :
    g.contains n = true ↔ ∃ t ∈ g, t.name = n := by
  simp [Graph.contains, List.any_eq_true]

lemma Graph.contains_false_iff (g : Graph) (n : String) :
    g.contains n = false ↔ ∀ t ∈ g, t.name ≠ n := by
  rw [← Bool.not_eq_true, Graph.contains_true_iff]
  push_neg
  rfl

lemma Graph.contains_mono {g : Graph} {n : String} (ext : List Task)
    (h : g.contains n = true) : Graph.contains (g ++ ext) n = true := by
  simp only [Graph.contains] at h ⊢
  simp [List.any_append, h]

lemma Graph.get_mono {g : Graph} {n : String} {t : Task} (ext : List Task)
    (h : g.get n = some t) : Graph.get (g ++ ext) n = some t := by
  simp only [Graph.get] at h ⊢
  rw [List.find?_append, h]
  rfl

lemma Graph.get_eq_none_of_contains_false {g : Graph} {n : String}
    (h : g.contains n = false) : g.get n = none := by
  rw [Graph.contains_false_iff] at h
  simp only [Graph.get]
  rw [List.find?_eq_none]
  intro t ht
  simp [h t ht]

lemma Graph.contains_of_get {g : Graph} {n : String} {t : Task}
    (h : g.get n = some t) : g.contains n = true := by
  simp only [Graph.get] at h
  rw [Graph.contains_true_iff]
  have h1 := List.find?_some h
  simp only [decide_eq_true_eq] at h1
  exact ⟨t, List.mem_of_find?_eq_some h, h1⟩

lemma Graph.get_insert_self {g : Graph} {t : Task} {n : String}
    (hc : g.contains n = false) (hn : t.name = n) :
    (g.insert t).get n = some t := by
  simp only [Graph.insert, Graph.get]
  rw [List.find?_append]
  have hg : g.find? (fun u => u.name = n) = none :=
    Graph.get_eq_none_of_contains_false hc
  rw [hg]
  simp [List.find?_cons, hn]

lemma Graph.contains_insert_self {g : Graph} {t : Task} {n : String}
    (hn : t.name = n) : (g.insert t).contains n = true := by
  rw [Graph.contains_true_iff]
  exact ⟨t, by simp [Graph.insert], hn⟩

lemma Env.getTask_name {env : Env} {n : String} {t : Task}
    (h : env.getTask n = some t) : t.name = n := by
  simp only [Env.getTask] at h
  have h1 := List.find?_some h
  simpa only [decide_eq_true_eq] using h1

lemma find?_first {α : Type} (p : α → Bool) (pre : List α) (x : α) (post : List α)
    (hpre : ∀ y ∈ pre, p y = false) (hx : p x = true) :
    (pre ++ x :: post).find? p = some x := by
  rw [List.find?_append]
  have h1 : pre.find? p = none := by
    rw [List.find?_eq_none]
    intro y hy
    simp [hpre y hy]
  rw [h1]
  simp [List.find?_cons, hx]

/-! ### Unfolding lemmas for the resolver -/

lemma resolveTask_fuel0 (env : Env) (g : Graph) (n : String) :
    resolveTask env 0 g n = ⟨.fuelOut, g, []⟩ := rfl

lemma resolveTask_contains (env : Env) (fuel : Nat) {g : Graph} {n : String}
    (hc : g.contains n = true) :
    resolveTask env (fuel + 1) g n =
      match g.get n with
      | some t => depsFold (fun g' d => resolveTask env fuel g' d) t.dependencies ⟨.ok, g, []⟩
      | none => ⟨.panicked n, g, []⟩ := by
  simp [resolveTask, hc]

lemma resolveTask_named (env : Env) (fuel : Nat) {g : Graph} {n : String} {task : Task}
    (hc : g.contains n = false) (ht : env.getTask n = some task) :
    resolveTask env (fuel + 1) g n =
      depsFold (fun g' d => resolveTask env fuel g' d) task.dependencies
        ⟨.ok, g.insert task, [n]⟩ := by
  simp [resolveTask, hc, ht, Graph.get_insert_self hc (Env.getTask_name ht)]

lemma resolveTask_rule (env : Env) (fuel : Nat) {g : Graph} {n : String}
    {rule : Rule} {task : Task}
    (hc : g.contains n = false) (ht : env.getTask n = none)
    (hr : env.rules.find? (fun r => r.matchesName n) = some rule)
    (hcr : rule.createTask n = some task) :
    resolveTask env (fuel + 1) g n =
      match (g.insert task).get n with
      | some t => depsFold (fun g' d => resolveTask env fuel g' d) t.dependencies
          ⟨.ok, g.insert task, [n]⟩
      | none => ⟨.panicked n, g.insert task, [n]⟩ := by
  simp [resolveTask, hc, ht, hr, hcr]

lemma resolveTask_rule_panic (env : Env) (fuel : Nat) {g : Graph} {n : String}
    {rule : Rule}
    (hc : g.contains n = false) (ht : env.getTask n = none)
    (hr : env.rules.find? (fun r => r.matchesName n) = some rule)
    (hcr : rule.createTask n = none) :
    resolveTask env (fuel + 1) g n = ⟨.panicked n, g, [n]⟩ := by
  simp [resolveTask, hc, ht, hr, hcr]

lemma resolveTask_nomatch (env : Env) (fuel : Nat) {g : Graph} {n : String}
    (hc : g.contains n = false) (ht : env.getTask n = none)
    (hr : env.rules.find? (fun r => r.matchesName n) = none) :
    resolveTask env (fuel + 1) g n = ⟨.err (.unknownTask n), g, [n]⟩ := by
  simp [resolveTask, hc, ht, hr]

/-! ### Structural lemmas about the dependency loop and graph growth -/

lemma depsFold_stuck (step : Graph → String → RRes) :
    ∀ (ds : List String) (acc : RRes), acc.status ≠ .ok → depsFold step ds acc = acc := by
  intro ds
  induction ds with
  | nil => intro acc _; rfl
  | cons d rest ih =>
    rintro ⟨st, g, lk⟩ h
    cases st with
    | ok => exact absurd rfl h
    | err e => rfl
    | panicked m => rfl
    | fuelOut => rfl

lemma depsFold_graph_mono (step : Graph → String → RRes)
    (hstep : ∀ g d, ∃ ext, (step g d).graph = g ++ ext) :
    ∀ (ds : List String) (acc : RRes),
      ∃ ext, (depsFold step ds acc).graph = acc.graph ++ ext := by
  intro ds
  induction ds with
  | nil => intro acc; exact ⟨[], by simp [depsFold]⟩
  | cons d rest ih =>
    rintro ⟨st, g, lk⟩
    cases st with
    | ok =>
      by_cases hc : Graph.contains g d
      · simpa [depsFold, hc] using ih ⟨.ok, g, lk⟩
      · simp only [depsFold, Bool.not_eq_true] at hc ⊢
        rw [if_neg (by simp [hc])]
        obtain ⟨e1, he1⟩ := hstep g d
        obtain ⟨e2, he2⟩ := ih ⟨(step g d).status, (step g d).graph, lk ++ (step g d).lookups⟩
        exact ⟨e1 ++ e2, by simp only at he2 ⊢; rw [he2, he1, List.append_assoc]⟩
    | err e => exact ⟨[], by simp [depsFold]⟩
    | panicked m => exact ⟨[], by simp [depsFold]⟩
    | fuelOut => exact ⟨[], by simp [depsFold]⟩

lemma resolveTask_graph_mono (env : Env) :
    ∀ (fuel : Nat) (g : Graph) (n : String),
      ∃ ext, (resolveTask env fuel g n).graph = g ++ ext := by
  intro fuel
  induction fuel with
  | zero => intro g n; exact ⟨[], by simp [resolveTask_fuel0]⟩
  | succ fuel ih =>
    intro g n
    by_cases hc : Graph.contains g n
    · rw [resolveTask_contains env fuel hc]
      cases hg : g.get n with
      | none => exact ⟨[], by simp⟩
      | some t =>
        obtain ⟨ext, hext⟩ := depsFold_graph_mono _ (fun g' d => ih g' d) t.dependencies ⟨.ok, g, []⟩
        exact ⟨ext, by simpa using hext⟩
    · simp only [Bool.not_eq_true] at hc
      cases ht : env.getTask n with
      | some task =>
        rw [resolveTask_named env fuel hc ht]
        obtain ⟨ext, hext⟩ :=
          depsFold_graph_mono _ (fun g' d => ih g' d) task.dependencies ⟨.ok, g.insert task, [n]⟩
        exact ⟨[task] ++ ext, by simpa [Graph.insert] using hext⟩
      | none =>
        cases hr : env.rules.find? (fun r => r.matchesName n) with
        | some rule =>
          cases hcr : rule.createTask n with
          | some task =>
            rw [resolveTask_rule env fuel hc ht hr hcr]
            cases hg : (g.insert task).get n with
            | none => exact ⟨[task], by simp [hg, Graph.insert]⟩
            | some t =>
              obtain ⟨ext, hext⟩ :=
                depsFold_graph_mono _ (fun g' d => ih g' d) t.dependencies ⟨.ok, g.insert task, [n]⟩
              exact ⟨[task] ++ ext, by simp only [hg]; simpa [Graph.insert] using hext⟩
          | none =>
            rw [resolveTask_rule_panic env fuel hc ht hr hcr]
            exact ⟨[], by simp⟩
        | none =>
          rw [resolveTask_nomatch env fuel hc ht hr]
          exact ⟨[], by simp⟩

lemma Graph.contains_insert_of_ne {g : Graph} {t : Task} {n : String}
    (hc : g.contains n = false) (hn : t.name ≠ n) :
    (g.insert t).contains n = false := by
  rw [Graph.contains_false_iff] at hc ⊢
  intro u hu
  rcases List.mem_append.mp hu with h | h
  · exact hc u h
  · simp only [List.mem_singleton] at h
    exact h ▸ hn

lemma depsFold_unmatched (step : Graph → String → RRes) (n : String)
    (hstep : ∀ g d, Graph.contains g n = false → Graph.contains (step g d).graph n = false) :
    ∀ (ds : List String) (acc : RRes),
      Graph.contains acc.graph n = false →
      Graph.contains (depsFold step ds acc).graph n = false := by
  intro ds
  induction ds with
  | nil => intro acc h; simpa [depsFold] using h
  | cons d rest ih =>
    rintro ⟨st, g, lk⟩ h
    cases st with
    | ok =>
      by_cases hc : Graph.contains g d
      · simpa [depsFold, hc] using ih ⟨.ok, g, lk⟩ h
      · simp only [Bool.not_eq_true] at hc
        simp only [depsFold]
        rw [if_neg (by simp [hc])]
        exact ih ⟨(step g d).status, (step g d).graph, lk ++ (step g d).lookups⟩ (hstep g d h)
    | err e => simpa [depsFold] using h
    | panicked m => simpa [depsFold] using h
    | fuelOut => simpa [depsFold] using h

lemma resolveTask_unmatched (env : Env) (n : String)
    (ht : env.getTask n = none)
    (hr : ∀ r ∈ env.rules, r.matchesName n = false)
    (hwf : ∀ r ∈ env.rules, ∀ m t, r.createTask m = some t → t.name = m) :
    ∀ (fuel : Nat) (g : Graph) (m : String),
      Graph.contains g n = false →
      Graph.contains (resolveTask env fuel g m).graph n = false := by
  intro fuel
  induction fuel with
  | zero => intro g m h; simpa [resolveTask_fuel0] using h
  | succ fuel ih =>
    intro g m h
    by_cases hc : Graph.contains g m
    · rw [resolveTask_contains env fuel hc]
      cases hg : g.get m with
      | none => simpa using h
      | some t => exact depsFold_unmatched _ n (fun g' d => ih g' d) t.dependencies ⟨.ok, g, []⟩ h
    · simp only [Bool.not_eq_true] at hc
      cases htm : env.getTask m with
      | some task =>
        rw [resolveTask_named env fuel hc htm]
        have hname : task.name ≠ n := by
          rw [Env.getTask_name htm]
          intro he
          rw [he] at htm
          rw [ht] at htm
          exact Option.noConfusion htm
        exact depsFold_unmatched _ n (fun g' d => ih g' d) task.dependencies
          ⟨.ok, g.insert task, [m]⟩ (Graph.contains_insert_of_ne h hname)
      | none =>
        cases hrm : env.rules.find? (fun r => r.matchesName m) with
        | some rule =>
          have hrmem : rule ∈ env.rules := List.mem_of_find?_eq_some hrm
          have hmn : m ≠ n := by
            intro he
            have hmatch := List.find?_some hrm
            rw [he] at hmatch
            rw [hr rule hrmem] at hmatch
            exact Bool.noConfusion hmatch
          cases hcr : rule.createTask m with
          | some task =>
            rw [resolveTask_rule env fuel hc htm hrm hcr]
            have hname : task.name ≠ n := by
              rw [hwf rule hrmem m task hcr]
              exact hmn
            have h' : Graph.contains (g.insert task) n = false :=
              Graph.contains_insert_of_ne h hname
            cases hg : (g.insert task).get m with
            | none => simpa using h'
            | some t =>
              exact depsFold_unmatched _ n (fun g' d => ih g' d) t.dependencies
                ⟨.ok, g.insert task, [m]⟩ h'
          | none =>
            rw [resolveTask_rule_panic env fuel hc htm hrm hcr]
            simpa using h
        | none =>
          rw [resolveTask_nomatch env fuel hc htm hrm]
          simpa using h

/-- C4: for a name `n` with both a registered task `n` and a matching rule,
lookup chooses the registered task; only on an exact-name miss are the rules
scanned, in insertion order, and the first whose pattern matches `n` is used
to materialise the task.  This holds in the resolver (`Runner::resolve_task`,
which inserts the chosen task into the graph) and in each worker's per-task
lookup. -/
theorem claim4_lookup_priority (env : Env) (n : String) (g : Graph) (fuel : Nat) :
    (∀ task, env.getTask n = some task →
      workerLookup env n = .found task ∧
      (g.contains n = false →
        ∃ ext, (resolveTask env (fuel + 1) g n).graph = g.insert task ++ ext ∧
          Graph.get (resolveTask env (fuel + 1) g n).graph n = some task)) ∧
    (env.getTask n = none →
      ∀ pre rule post, env.rules = pre ++ rule :: post →
        (∀ r ∈ pre, r.matchesName n = false) →
        rule.matchesName n = true →
        ∀ task, rule.createTask n = some task →
          workerLookup env n = .found task ∧
          (g.contains n = false →
            ∃ ext, (resolveTask env (fuel + 1) g n).graph = g.insert task ++ ext)) := by
  constructor
  · intro task ht
    refine ⟨by simp [workerLookup, ht], ?_⟩
    intro hc
    rw [resolveTask_named env fuel hc ht]
    obtain ⟨ext, hext⟩ :=
      depsFold_graph_mono _ (fun g' d => resolveTask_graph_mono env fuel g' d)
        task.dependencies ⟨.ok, g.insert task, [n]⟩
    refine ⟨ext, by simpa using hext, ?_⟩
    have hget : (g.insert task).get n = some task :=
      Graph.get_insert_self hc (Env.getTask_name ht)
    have := Graph.get_mono ext hget
    simpa [hext] using this
  · intro ht pre rule post hrules hpre hm task hcr
    have hfind : env.rules.find? (fun r => r.matchesName n) = some rule := by
      rw [hrules]
      exact find?_first _ pre rule post (fun y hy => by simp [hpre y hy]) (by simp [hm])
    refine ⟨by simp [workerLookup, ht, hfind, hcr], ?_⟩
    intro hc
    rw [resolveTask_rule env fuel hc ht hfind hcr]
    cases hg : (g.insert task).get n with
    | none => exact ⟨[], by simp⟩
    | some t =>
      obtain ⟨ext, hext⟩ :=
        depsFold_graph_mono _ (fun g' d => resolveTask_graph_mono env fuel g' d)
          t.dependencies ⟨.ok, g.insert task, [n]⟩
      exact ⟨ext, by simpa using hext⟩

/-- Concrete registered task used by witnesses. -/
def task4 : Task := ⟨"n", []⟩

/-- Concrete always-matching rule used by witnesses. -/
def rule4 : Rule := ⟨"*", fun _ => true, fun m => some ⟨m, []⟩⟩

/-- Witness registry with both a registered task `n` and a matching rule. -/
def env4 : Env := ⟨[task4], [rule4]⟩

/-- Concrete never-matching rule used by witnesses. -/
def rulePre : Rule := ⟨"none", fun _ => false, fun _ => none⟩

/-- Witness registry with no registered tasks and two rules, of which only the
second matches. -/
def env4r : Env := ⟨[], [rulePre, rule4]⟩

/-- Witness for C4: with both a registered task `n` and an always-matching
rule present, both lookups pick the registered task; with no registered task,
the first matching rule (the second in insertion order here) materialises the
task. -/
theorem claim4_witness :
    workerLookup env4 "n" = LookupResult.found task4 ∧
    Graph.get (resolveTask env4 1 Graph.nil "n").graph "n" = some task4 ∧
    workerLookup env4r "x" = LookupResult.found ⟨"x", []⟩ ∧
    ∃ ext, (resolveTask env4r 1 Graph.nil "x").graph = Graph.insert Graph.nil ⟨"x", []⟩ ++ ext := by
  have h := claim4_lookup_priority env4 "n" Graph.nil 0
  have h1 := h.1 task4 (by decide)
  obtain ⟨ext, hext, hget⟩ := h1.2 (by decide)
  have h2 := claim4_lookup_priority env4r "x" Graph.nil 0
  have h2' := h2.2 (by decide) [rulePre] rule4 [] rfl
    (by
      intro r hr
      simp only [List.mem_singleton] at hr
      subst hr
      rfl)
    rfl ⟨"x", []⟩ rfl
  exact ⟨h1.1, hget, h2'.1, h2'.2 (by decide)⟩

/-- C6: a name `n` with no registered task and no matching rule resolves to
the "no matching task or rule" error naming `n` (whether requested as a root
or reached as a transitive dependency, since every resolution of `n` goes
through the same function), and no node named `n` is ever inserted into the
graph by any resolution.  The hypothesis `hwf` states that rule
materialisation names tasks by the requested concrete name, as the spec
describes. -/
theorem claim6_unknown_task (env : Env) (n : String)
    (ht : env.getTask n = none)
    (hr : ∀ r ∈ env.rules, r.matchesName n = false)
    (hwf : ∀ r ∈ env.rules, ∀ m t, r.createTask m = some t → t.name = m) :
    (∀ fuel g, Graph.contains g n = false →
        resolveTask env (fuel + 1) g n = ⟨.err (.unknownTask n), g, [n]⟩) ∧
    (∀ fuel g m, Graph.contains g n = false →
        Graph.contains (resolveTask env fuel g m).graph n = false) := by
  constructor
  · intro fuel g hc
    have hfind : env.rules.find? (fun r => r.matchesName n) = none := by
      rw [List.find?_eq_none]
      intro r hrm
      simp [hr r hrm]
    exact resolveTask_nomatch env fuel hc ht hfind
  · exact resolveTask_unmatched env n ht hr hwf

/-- Witness registry with no tasks and no rules. -/
def env6 : Env := ⟨[], []⟩

/-- Witness for C6: resolving a name in an empty registry yields the
unknown-task error and inserts nothing. -/
theorem claim6_witness :
    resolveTask env6 1 Graph.nil "ghost" = ⟨.err (.unknownTask "ghost"), Graph.nil, ["ghost"]⟩ ∧
    Graph.contains (resolveTask env6 1 Graph.nil "ghost").graph "ghost" = false := by
  have h := claim6_unknown_task env6 "ghost" rfl (by simp [env6]) (by simp [env6])
  exact ⟨h.1 0 Graph.nil rfl, h.2 1 Graph.nil "ghost" rfl⟩

/-- Witness rule whose materialisation always fails. -/
def rule9 : Rule := ⟨"*.o", fun _ => true, fun _ => none⟩

/-- Witness registry for C9: no tasks, one always-matching rule that fails to
materialise. -/
def env9 : Env := ⟨[], [rule9]⟩

/-- Counterexample for C9 as stated: when materialising from the matching
rule fails, the resolver does not surface any error value to the caller — the
`unwrap` panics the thread (status `panicked`, never `err`), and the
worker-side lookup likewise panics. -/
theorem claim9_counterexample :
    (resolveTask env9 1 Graph.nil "foo.o").status = RStatus.panicked "foo.o" ∧
    (∀ e : RunError, (resolveTask env9 1 Graph.nil "foo.o").status ≠ RStatus.err e) ∧
    workerLookup env9 "foo.o" = LookupResult.rulePanic := by
  refine ⟨rfl, ?_, rfl⟩
  intro e h
  rw [show (resolveTask env9 1 Graph.nil "foo.o").status = RStatus.panicked "foo.o" from rfl] at h
  exact RStatus.noConfusion h

/-- C9 amended: when a name is looked up via a rule (no registered task, a
matching rule exists) and materialising from the rule's template fails, the
failure does not surface as an error value: `rule.create_task(name).unwrap()`
panics the calling thread, in the resolver and in the worker alike. -/
theorem claim9_materialisation_panics (env : Env) (n : String) (g : Graph) (fuel : Nat)
    (rule : Rule) (pre post : List Rule)
    (ht : env.getTask n = none)
    (hrules : env.rules = pre ++ rule :: post)
    (hpre : ∀ r ∈ pre, r.matchesName n = false)
    (hm : rule.matchesName n = true)
    (hcr : rule.createTask n = none) :
    workerLookup env n = .rulePanic ∧
    (g.contains n = false →
      resolveTask env (fuel + 1) g n = ⟨.panicked n, g, [n]⟩) := by
  have hfind : env.rules.find? (fun r => r.matchesName n) = some rule := by
    rw [hrules]
    exact find?_first _ pre rule post (fun y hy => by simp [hpre y hy]) (by simp [hm])
  refine ⟨by simp [workerLookup, ht, hfind, hcr], ?_⟩
  intro hc
  exact resolveTask_rule_panic env fuel hc ht hfind hcr

/-- Witness for the amended C9 at the concrete failing registry. -/
theorem claim9_witness :
    workerLookup env9 "foo.o" = LookupResult.rulePanic ∧
    resolveTask env9 1 Graph.nil "foo.o" = ⟨.panicked "foo.o", Graph.nil, ["foo.o"]⟩ := by
  have h := claim9_materialisation_panics env9 "foo.o" Graph.nil 0 rule9 [] [] rfl rfl
    (by simp) rfl rfl
  exact ⟨h.1, h.2 rfl⟩

/-! ### Lemmas for memoisation and idempotence of resolution -/

lemma Graph.get_of_contains {g : Graph} {n : String} (h : g.contains n = true) :
    ∃ t, g.get n = some t := by
  cases hf : g.get n with
  | some t => exact ⟨t, rfl⟩
  | none =>
    rw [Graph.contains_true_iff] at h
    obtain ⟨t, ht, hn⟩ := h
    simp only [Graph.get] at hf
    rw [List.find?_eq_none] at hf
    exact absurd (by simp [hn]) (hf t ht)

lemma Graph.get_insert_eq {g : Graph} {task t : Task} {n : String}
    (hc : g.contains n = false) (h : (g.insert task).get n = some t) : t = task := by
  have hnone := Graph.get_eq_none_of_contains_false hc
  simp only [Graph.get] at hnone
  simp only [Graph.insert, Graph.get] at h
  rw [List.find?_append, hnone] at h
  simp only [Option.none_or, List.find?_cons] at h
  cases hd : decide (task.name = n) with
  | false =>
    rw [hd] at h
    exact absurd h (by simp [List.find?])
  | true =>
    rw [hd] at h
    exact (Option.some_injective _ h).symm

lemma resolveTask_contains_get (env : Env) (fuel : Nat) {g : Graph} {n : String} {t : Task}
    (hc : g.contains n = true) (hg : g.get n = some t) :
    resolveTask env (fuel + 1) g n =
      depsFold (fun g' d => resolveTask env fuel g' d) t.dependencies ⟨.ok, g, []⟩ := by
  rw [resolveTask_contains env fuel hc, hg]

lemma resolveTask_contains_getfail (env : Env) (fuel : Nat) {g : Graph} {n : String}
    (hc : g.contains n = true) (hg : g.get n = none) :
    resolveTask env (fuel + 1) g n = ⟨.panicked n, g, []⟩ := by
  rw [resolveTask_contains env fuel hc, hg]

lemma resolveTask_rule_get (env : Env) (fuel : Nat) {g : Graph} {n : String}
    {rule : Rule} {task t : Task}
    (hc : g.contains n = false) (ht : env.getTask n = none)
    (hr : env.rules.find? (fun r => r.matchesName n) = some rule)
    (hcr : rule.createTask n = some task)
    (hg : (g.insert task).get n = some t) :
    resolveTask env (fuel + 1) g n =
      depsFold (fun g' d => resolveTask env fuel g' d) t.dependencies
        ⟨.ok, g.insert task, [n]⟩ := by
  rw [resolveTask_rule env fuel hc ht hr hcr, hg]

lemma resolveTask_rule_getfail (env : Env) (fuel : Nat) {g : Graph} {n : String}
    {rule : Rule} {task : Task}
    (hc : g.contains n = false) (ht : env.getTask n = none)
    (hr : env.rules.find? (fun r => r.matchesName n) = some rule)
    (hcr : rule.createTask n = some task)
    (hg : (g.insert task).get n = none) :
    resolveTask env (fuel + 1) g n = ⟨.panicked n, g.insert task, [n]⟩ := by
  rw [resolveTask_rule env fuel hc ht hr hcr, hg]

/-- The number of graph nodes named `n`. -/
def nameCount (g : Graph) (n : String) : Nat :=
  g.countP (fun t => t.name = n)

lemma nameCount_append (g ext : List Task) (n : String) :
    nameCount (g ++ ext) n = nameCount g n + nameCount ext n := by
  simp [nameCount, List.countP_append]

lemma nameCount_insert_ne {g : Graph} {t : Task} {n : String} (h : t.name ≠ n) :
    nameCount (g.insert t) n = nameCount g n := by
  simp [Graph.insert, nameCount, List.countP_append, List.countP_cons, h]

/-- Every node's declared dependencies are present in the graph, except
possibly names listed in `P` (pending resolution). -/
def AlmostClosed (g : Graph) (P : List String) : Prop :=
  ∀ t ∈ g, ∀ d ∈ t.dependencies, Graph.contains g d = true ∨ d ∈ P

lemma almostClosed_weaken {g : Graph} {P Q : List String} (h : AlmostClosed g P)
    (hPQ : ∀ x ∈ P, x ∈ Q) : AlmostClosed g Q := by
  intro t ht d hd
  rcases h t ht d hd with hc | hp
  · exact Or.inl hc
  · exact Or.inr (hPQ d hp)

lemma depsFold_no_lookup (step : Graph → String → RRes) (n : String)
    (hmono : ∀ g d, ∃ ext, (step g d).graph = g ++ ext)
    (hstep : ∀ g d, Graph.contains g n = true → n ∉ (step g d).lookups) :
    ∀ (ds : List String) (acc : RRes),
      Graph.contains acc.graph n = true → n ∉ acc.lookups →
      n ∉ (depsFold step ds acc).lookups := by
  intro ds
  induction ds with
  | nil => intro acc h hl; simpa [depsFold] using hl
  | cons d rest ih =>
    rintro ⟨st, g, lk⟩ h hl
    cases st with
    | ok =>
      by_cases hc : Graph.contains g d
      · simp only [depsFold]
        rw [if_pos (by simpa using hc)]
        exact ih ⟨.ok, g, lk⟩ h hl
      · simp only [Bool.not_eq_true] at hc
        simp only [depsFold]
        rw [if_neg (by simp [hc])]
        obtain ⟨ext, hext⟩ := hmono g d
        refine ih _ ?_ ?_
        · simpa [hext] using Graph.contains_mono ext h
        · simp only [List.mem_append]
          rintro (h1 | h2)
          · exact hl h1
          · exact hstep g d h h2
    | err e => simpa [depsFold] using hl
    | panicked m => simpa [depsFold] using hl
    | fuelOut => simpa [depsFold] using hl

lemma depsFold_count (step : Graph → String → RRes) (n : String)
    (hmono : ∀ g d, ∃ ext, (step g d).graph = g ++ ext)
    (hstep : ∀ g d, Graph.contains g n = true →
      nameCount (step g d).graph n = nameCount g n) :
    ∀ (ds : List String) (acc : RRes),
      Graph.contains acc.graph n = true →
      nameCount (depsFold step ds acc).graph n = nameCount acc.graph n := by
  intro ds
  induction ds with
  | nil => intro acc h; simp [depsFold]
  | cons d rest ih =>
    rintro ⟨st, g, lk⟩ h
    cases st with
    | ok =>
      by_cases hc : Graph.contains g d
      · simp only [depsFold]
        rw [if_pos (by simpa using hc)]
        exact ih ⟨.ok, g, lk⟩ h
      · simp only [Bool.not_eq_true] at hc
        simp only [depsFold]
        rw [if_neg (by simp [hc])]
        obtain ⟨ext, hext⟩ := hmono g d
        have h' : Graph.contains (step g d).graph n = true := by
          simpa [hext] using Graph.contains_mono ext h
        have := ih ⟨(step g d).status, (step g d).graph, lk ++ (step g d).lookups⟩ h'
        simp only at this
        rw [this]
        exact hstep g d h
    | err e => simp [depsFold]
    | panicked m => simp [depsFold]
    | fuelOut => simp [depsFold]

lemma resolveTask_no_lookup (env : Env) (n : String) :
    ∀ (fuel : Nat) (g : Graph) (m : String),
      Graph.contains g n = true → n ∉ (resolveTask env fuel g m).lookups := by
  intro fuel
  induction fuel with
  | zero => intro g m h; simp [resolveTask_fuel0]
  | succ fuel ih =>
    intro g m h
    by_cases hc : Graph.contains g m
    · rw [resolveTask_contains env fuel hc]
      cases hg : g.get m with
      | none => simp
      | some t =>
        exact depsFold_no_lookup _ n (resolveTask_graph_mono env fuel)
          (fun g' d h' => ih g' d h') t.dependencies ⟨.ok, g, []⟩ h (by simp)
    · simp only [Bool.not_eq_true] at hc
      have hmn : m ≠ n := by
        intro he
        rw [he, h] at hc
        exact Bool.noConfusion hc
      cases htm : env.getTask m with
      | some task =>
        rw [resolveTask_named env fuel hc htm]
        refine depsFold_no_lookup _ n (resolveTask_graph_mono env fuel)
          (fun g' d h' => ih g' d h') task.dependencies ⟨.ok, g.insert task, [m]⟩ ?_ ?_
        · simpa [Graph.insert] using Graph.contains_mono [task] h
        · simp [hmn.symm]
      | none =>
        cases hrm : env.rules.find? (fun r => r.matchesName m) with
        | some rule =>
          cases hcr : rule.createTask m with
          | some task =>
            rw [resolveTask_rule env fuel hc htm hrm hcr]
            cases hg : (g.insert task).get m with
            | none => simp [hmn.symm]
            | some t =>
              refine depsFold_no_lookup _ n (resolveTask_graph_mono env fuel)
                (fun g' d h' => ih g' d h') t.dependencies ⟨.ok, g.insert task, [m]⟩ ?_ ?_
              · simpa [Graph.insert] using Graph.contains_mono [task] h
              · simp [hmn.symm]
          | none =>
            rw [resolveTask_rule_panic env fuel hc htm hrm hcr]
            simp [hmn.symm]
        | none =>
          rw [resolveTask_nomatch env fuel hc htm hrm]
          simp [hmn.symm]

lemma resolveTask_count (env : Env) (n : String)
    (hwf : ∀ r ∈ env.rules, ∀ m t, r.createTask m = some t → t.name = m) :
    ∀ (fuel : Nat) (g : Graph) (m : String),
      Graph.contains g n = true →
      nameCount (resolveTask env fuel g m).graph n = nameCount g n := by
  intro fuel
  induction fuel with
  | zero => intro g m h; simp [resolveTask_fuel0]
  | succ fuel ih =>
    intro g m h
    by_cases hc : Graph.contains g m
    · rw [resolveTask_contains env fuel hc]
      cases hg : g.get m with
      | none => simp
      | some t =>
        simpa using depsFold_count _ n (resolveTask_graph_mono env fuel)
          (fun g' d h' => ih g' d h') t.dependencies ⟨.ok, g, []⟩ h
    · simp only [Bool.not_eq_true] at hc
      have hmn : m ≠ n := by
        intro he
        rw [he, h] at hc
        exact Bool.noConfusion hc
      cases htm : env.getTask m with
      | some task =>
        rw [resolveTask_named env fuel hc htm]
        have hname : task.name ≠ n := by rw [Env.getTask_name htm]; exact hmn
        have h' : Graph.contains (g.insert task) n = true := by
          simpa [Graph.insert] using Graph.contains_mono [task] h
        have := depsFold_count _ n (resolveTask_graph_mono env fuel)
          (fun g' d h' => ih g' d h') task.dependencies ⟨.ok, g.insert task, [m]⟩ h'
        simp only at this
        rw [this]
        exact nameCount_insert_ne hname
      | none =>
        cases hrm : env.rules.find? (fun r => r.matchesName m) with
        | some rule =>
          cases hcr : rule.createTask m with
          | some task =>
            rw [resolveTask_rule env fuel hc htm hrm hcr]
            have hname : task.name ≠ n := by
              rw [hwf rule (List.mem_of_find?_eq_some hrm) m task hcr]
              exact hmn
            have h' : Graph.contains (g.insert task) n = true := by
              simpa [Graph.insert] using Graph.contains_mono [task] h
            cases hg : (g.insert task).get m with
            | none => simpa using nameCount_insert_ne hname
            | some t =>
              have := depsFold_count _ n (resolveTask_graph_mono env fuel)
                (fun g' d h' => ih g' d h') t.dependencies ⟨.ok, g.insert task, [m]⟩ h'
              simp only at this
              rw [this]
              exact nameCount_insert_ne hname
          | none =>
            rw [resolveTask_rule_panic env fuel hc htm hrm hcr]
        | none =>
          rw [resolveTask_nomatch env fuel hc htm hrm]

lemma resolveTask_ok_contains (env : Env) (fuel : Nat) (g : Graph) (n : String)
    (h : (resolveTask env fuel g n).status = .ok) :
    Graph.contains (resolveTask env fuel g n).graph n = true := by
  cases fuel with
  | zero => exact absurd h (by simp [resolveTask_fuel0])
  | succ fuel =>
    by_cases hc : Graph.contains g n
    · cases hg : g.get n with
      | none =>
        rw [resolveTask_contains_getfail env fuel hc hg] at h
        exact absurd h (by simp)
      | some t =>
        rw [resolveTask_contains_get env fuel hc hg] at h ⊢
        obtain ⟨ext, hext⟩ :=
          depsFold_graph_mono _ (resolveTask_graph_mono env fuel) t.dependencies ⟨.ok, g, []⟩
        simp only at hext
        rw [hext]
        exact Graph.contains_mono ext hc
    · simp only [Bool.not_eq_true] at hc
      cases htm : env.getTask n with
      | some task =>
        rw [resolveTask_named env fuel hc htm] at h ⊢
        obtain ⟨ext, hext⟩ :=
          depsFold_graph_mono _ (resolveTask_graph_mono env fuel)
            task.dependencies ⟨.ok, g.insert task, [n]⟩
        simp only at hext
        rw [hext]
        exact Graph.contains_mono ext (Graph.contains_insert_self (Env.getTask_name htm))
      | none =>
        cases hrm : env.rules.find? (fun r => r.matchesName n) with
        | some rule =>
          cases hcr : rule.createTask n with
          | some task =>
            cases hg : (g.insert task).get n with
            | none =>
              rw [resolveTask_rule_getfail env fuel hc htm hrm hcr hg] at h
              exact absurd h (by simp)
            | some t =>
              rw [resolveTask_rule_get env fuel hc htm hrm hcr hg] at h ⊢
              obtain ⟨ext, hext⟩ :=
                depsFold_graph_mono _ (resolveTask_graph_mono env fuel)
                  t.dependencies ⟨.ok, g.insert task, [n]⟩
              simp only at hext
              rw [hext]
              exact Graph.contains_mono ext (Graph.contains_of_get hg)
          | none =>
            rw [resolveTask_rule_panic env fuel hc htm hrm hcr] at h
            exact absurd h (by simp)
        | none =>
          rw [resolveTask_nomatch env fuel hc htm hrm] at h
          exact absurd h (by simp)

lemma depsFold_closed (step : Graph → String → RRes)
    (hmono : ∀ g d, ∃ ext, (step g d).graph = g ++ ext)
    (hclosed : ∀ g d P, AlmostClosed g P → (step g d).status = .ok →
      AlmostClosed (step g d).graph P)
    (hself : ∀ g d, (step g d).status = .ok → Graph.contains (step g d).graph d = true) :
    ∀ (ds : List String) (acc : RRes) (P : List String),
      AlmostClosed acc.graph (ds ++ P) → (depsFold step ds acc).status = .ok →
      AlmostClosed (depsFold step ds acc).graph P := by
  intro ds
  induction ds with
  | nil => intro acc P h _; simpa [depsFold] using h
  | cons d rest ih =>
    rintro ⟨st, g, lk⟩ P h hok
    cases st with
    | ok =>
      by_cases hc : Graph.contains g d
      · simp only [depsFold] at hok ⊢
        rw [if_pos (by simpa using hc)] at hok ⊢
        refine ih ⟨.ok, g, lk⟩ P ?_ hok
        intro t ht d' hd'
        rcases h t ht d' hd' with h1 | h2
        · exact Or.inl h1
        · rcases (by simpa using h2 : d' = d ∨ d' ∈ rest ∨ d' ∈ P) with rfl | h3 | h4
          · exact Or.inl hc
          · exact Or.inr (List.mem_append_left _ h3)
          · exact Or.inr (List.mem_append_right _ h4)
      · simp only [Bool.not_eq_true] at hc
        simp only [depsFold] at hok ⊢
        rw [if_neg (by simp [hc])] at hok ⊢
        by_cases hst : (step g d).status = .ok
        · have hcl : AlmostClosed (step g d).graph ((d :: rest) ++ P) := hclosed g d _ h hst
          have hcd : Graph.contains (step g d).graph d = true := hself g d hst
          refine ih _ P ?_ hok
          intro t ht d' hd'
          rcases hcl t ht d' hd' with h1 | h2
          · exact Or.inl h1
          · rcases (by simpa using h2 : d' = d ∨ d' ∈ rest ∨ d' ∈ P) with rfl | h3 | h4
            · exact Or.inl hcd
            · exact Or.inr (List.mem_append_left _ h3)
            · exact Or.inr (List.mem_append_right _ h4)
        · rw [depsFold_stuck step rest _ (by simpa using hst)] at hok
          exact absurd hok (by simpa using hst)
    | err e =>
      rw [depsFold_stuck step (d :: rest) _ (by simp)] at hok
      exact absurd hok (by simp)
    | panicked m =>
      rw [depsFold_stuck step (d :: rest) _ (by simp)] at hok
      exact absurd hok (by simp)
    | fuelOut =>
      rw [depsFold_stuck step (d :: rest) _ (by simp)] at hok
      exact absurd hok (by simp)

lemma resolveTask_closed (env : Env) :
    ∀ (fuel : Nat) (g : Graph) (n : String) (P : List String),
      AlmostClosed g P → (resolveTask env fuel g n).status = .ok →
      AlmostClosed (resolveTask env fuel g n).graph P := by
  intro fuel
  induction fuel with
  | zero => intro g n P _ h; exact absurd h (by simp [resolveTask_fuel0])
  | succ fuel ih =>
    intro g n P h hok
    by_cases hc : Graph.contains g n
    · cases hg : g.get n with
      | none =>
        rw [resolveTask_contains_getfail env fuel hc hg] at hok
        exact absurd hok (by simp)
      | some t =>
        rw [resolveTask_contains_get env fuel hc hg] at hok ⊢
        refine depsFold_closed _ (resolveTask_graph_mono env fuel) ih
          (resolveTask_ok_contains env fuel) t.dependencies ⟨.ok, g, []⟩ P ?_ hok
        exact almostClosed_weaken h (fun x hx => List.mem_append_right _ hx)
    · simp only [Bool.not_eq_true] at hc
      cases htm : env.getTask n with
      | some task =>
        rw [resolveTask_named env fuel hc htm] at hok ⊢
        refine depsFold_closed _ (resolveTask_graph_mono env fuel) ih
          (resolveTask_ok_contains env fuel) task.dependencies ⟨.ok, g.insert task, [n]⟩ P ?_ hok
        intro t ht d' hd'
        rcases List.mem_append.mp ht with h1 | h2
        · rcases h t h1 d' hd' with h3 | h4
          · exact Or.inl (by simpa [Graph.insert] using Graph.contains_mono [task] h3)
          · exact Or.inr (List.mem_append_right _ h4)
        · simp only [List.mem_singleton] at h2
          subst h2
          exact Or.inr (List.mem_append_left _ hd')
      | none =>
        cases hrm : env.rules.find? (fun r => r.matchesName n) with
        | some rule =>
          cases hcr : rule.createTask n with
          | some task =>
            cases hg : (g.insert task).get n with
            | none =>
              rw [resolveTask_rule_getfail env fuel hc htm hrm hcr hg] at hok
              exact absurd hok (by simp)
            | some t =>
              rw [resolveTask_rule_get env fuel hc htm hrm hcr hg] at hok ⊢
              have hteq : t = task := Graph.get_insert_eq hc hg
              subst hteq
              refine depsFold_closed _ (resolveTask_graph_mono env fuel) ih
                (resolveTask_ok_contains env fuel) t.dependencies ⟨.ok, g.insert t, [n]⟩ P ?_ hok
              intro u hu d' hd'
              rcases List.mem_append.mp hu with h1 | h2
              · rcases h u h1 d' hd' with h3 | h4
                · exact Or.inl (by simpa [Graph.insert] using Graph.contains_mono [t] h3)
                · exact Or.inr (List.mem_append_right _ h4)
              · simp only [List.mem_singleton] at h2
                subst h2
                exact Or.inr (List.mem_append_left _ hd')
          | none =>
            rw [resolveTask_rule_panic env fuel hc htm hrm hcr] at hok
            exact absurd hok (by simp)
        | none =>
          rw [resolveTask_nomatch env fuel hc htm hrm] at hok
          exact absurd hok (by simp)

lemma resolveAll_graph_mono (env : Env) (fuel : Nat) :
    ∀ (roots : List String) (g : Graph),
      ∃ ext, (resolveAll env fuel g roots).graph = g ++ ext := by
  intro roots
  induction roots with
  | nil => intro g; exact ⟨[], by simp [resolveAll]⟩
  | cons n rest ih =>
    intro g
    obtain ⟨e1, he1⟩ := resolveTask_graph_mono env fuel g n
    cases hst : (resolveTask env fuel g n).status with
    | ok =>
      obtain ⟨e2, he2⟩ := ih (resolveTask env fuel g n).graph
      exact ⟨e1 ++ e2, by simp only [resolveAll, hst]; rw [he2, he1, List.append_assoc]⟩
    | err e => exact ⟨e1, by simp [resolveAll, hst, he1]⟩
    | panicked m => exact ⟨e1, by simp [resolveAll, hst, he1]⟩
    | fuelOut => exact ⟨e1, by simp [resolveAll, hst, he1]⟩

lemma resolveAll_ok_roots (env : Env) (fuel : Nat) :
    ∀ (roots : List String) (g : Graph),
      (resolveAll env fuel g roots).status = .ok →
      ∀ n ∈ roots, Graph.contains (resolveAll env fuel g roots).graph n = true := by
  intro roots
  induction roots with
  | nil => intro g _ n hn; exact absurd hn (List.not_mem_nil n)
  | cons m rest ih =>
    intro g hok n hn
    cases hst : (resolveTask env fuel g m).status with
    | ok =>
      simp only [resolveAll, hst] at hok ⊢
      rcases List.mem_cons.mp hn with h1 | h2
      · rw [h1]
        obtain ⟨ext, hext⟩ := resolveAll_graph_mono env fuel rest (resolveTask env fuel g m).graph
        rw [hext]
        exact Graph.contains_mono ext (resolveTask_ok_contains env fuel g m hst)
      · exact ih (resolveTask env fuel g m).graph hok n h2
    | err e => simp only [resolveAll, hst] at hok; exact absurd hok (by simp)
    | panicked p => simp only [resolveAll, hst] at hok; exact absurd hok (by simp)
    | fuelOut => simp only [resolveAll, hst] at hok; exact absurd hok (by simp)

lemma resolveAll_closed (env : Env) (fuel : Nat) :
    ∀ (roots : List String) (g : Graph),
      AlmostClosed g [] → (resolveAll env fuel g roots).status = .ok →
      AlmostClosed (resolveAll env fuel g roots).graph [] := by
  intro roots
  induction roots with
  | nil => intro g h _; simpa [resolveAll] using h
  | cons m rest ih =>
    intro g h hok
    cases hst : (resolveTask env fuel g m).status with
    | ok =>
      simp only [resolveAll, hst] at hok ⊢
      exact ih _ (resolveTask_closed env fuel g m [] h hst) hok
    | err e => simp only [resolveAll, hst] at hok; exact absurd hok (by simp)
    | panicked p => simp only [resolveAll, hst] at hok; exact absurd hok (by simp)
    | fuelOut => simp only [resolveAll, hst] at hok; exact absurd hok (by simp)

lemma depsFold_all_contained (step : Graph → String → RRes) :
    ∀ (ds : List String) (acc : RRes),
      (∀ d ∈ ds, Graph.contains acc.graph d = true) → depsFold step ds acc = acc := by
  intro ds
  induction ds with
  | nil => intro acc _; rfl
  | cons d rest ih =>
    rintro ⟨st, g, lk⟩ h
    cases st with
    | ok =>
      simp only [depsFold]
      rw [if_pos (by simpa using h d (List.mem_cons_self d rest))]
      exact ih ⟨.ok, g, lk⟩ (fun d' hd' => h d' (List.mem_cons_of_mem d hd'))
    | err e => rfl
    | panicked m => rfl
    | fuelOut => rfl

lemma resolveTask_noop (env : Env) (fuel : Nat) (g : Graph) (n : String)
    (hc : Graph.contains g n = true) (hclosed : AlmostClosed g []) :
    resolveTask env (fuel + 1) g n = ⟨.ok, g, []⟩ := by
  rw [resolveTask_contains env fuel hc]
  obtain ⟨t, hget⟩ := Graph.get_of_contains hc
  rw [hget]
  have ht : t ∈ g := List.mem_of_find?_eq_some hget
  refine depsFold_all_contained _ t.dependencies ⟨.ok, g, []⟩ ?_
  intro d hd
  rcases hclosed t ht d hd with h1 | h2
  · exact h1
  · exact absurd h2 (List.not_mem_nil d)

lemma resolveAll_noop (env : Env) (fuel : Nat) :
    ∀ (roots : List String) (g : Graph),
      AlmostClosed g [] → (∀ n ∈ roots, Graph.contains g n = true) →
      resolveAll env (fuel + 1) g roots = ⟨.ok, g, []⟩ := by
  intro roots
  induction roots with
  | nil => intro g _ _; rfl
  | cons m rest ih =>
    intro g hcl hroots
    have h1 : resolveTask env (fuel + 1) g m = ⟨.ok, g, []⟩ :=
      resolveTask_noop env fuel g m (hroots m (List.mem_cons_self m rest)) hcl
    simp only [resolveAll, h1]
    rw [ih g hcl (fun n hn => hroots n (List.mem_cons_of_mem m hn))]
    rfl

/-- C10: resolution is memoised on the graph and idempotent.  If `n` is
already a node: resolving anything performs no registry or rule lookup for
`n` (its name never appears in the lookup trace) and inserts no new node
named `n` (the count of nodes named `n` is unchanged); and a second
resolution of the same root set over the graph produced by a successful first
resolution returns the graph unchanged, with an empty lookup trace. -/
theorem claim10_memoised_idempotent (env : Env) (n : String) (roots : List String)
    (fuel fuel₂ : Nat)
    (hwf : ∀ r ∈ env.rules, ∀ m t, r.createTask m = some t → t.name = m) :
    (∀ (g : Graph) (m : String), Graph.contains g n = true →
      n ∉ (resolveTask env fuel g m).lookups ∧
      nameCount (resolveTask env fuel g m).graph n = nameCount g n) ∧
    ((resolveAll env fuel Graph.nil roots).status = .ok →
      resolveAll env (fuel₂ + 1) (resolveAll env fuel Graph.nil roots).graph roots
        = ⟨.ok, (resolveAll env fuel Graph.nil roots).graph, []⟩) := by
  constructor
  · intro g m h
    exact ⟨resolveTask_no_lookup env n fuel g m h, resolveTask_count env n hwf fuel g m h⟩
  · intro hok
    have hnil : AlmostClosed Graph.nil [] := by
      intro t ht
      exact absurd ht (List.not_mem_nil t)
    exact resolveAll_noop env fuel₂ roots _
      (resolveAll_closed env fuel roots Graph.nil hnil hok)
      (resolveAll_ok_roots env fuel roots Graph.nil hok)

/-- Witness for C10 on a concrete registry: with `x` already in the graph,
resolving it again records no lookup and adds no node; resolving root `x`
twice from scratch is the same as once. -/
theorem claim10_witness :
    ("x" ∉ (resolveTask env4r 2 [⟨"x", []⟩] "x").lookups ∧
      nameCount (resolveTask env4r 2 [⟨"x", []⟩] "x").graph "x"
        = nameCount [⟨"x", []⟩] "x") ∧
    resolveAll env4r (0 + 1) (resolveAll env4r 2 Graph.nil ["x"]).graph ["x"]
      = ⟨.ok, (resolveAll env4r 2 Graph.nil ["x"]).graph, []⟩ := by
  have hwf : ∀ r ∈ env4r.rules, ∀ m t, r.createTask m = some t → t.name = m := by
    intro r hr m t hct
    simp only [env4r, List.mem_cons, List.not_mem_nil, or_false] at hr
    rcases hr with rfl | rfl
    · exact Option.noConfusion hct
    · simp only [rule4, Option.some_inj] at hct
      rw [← hct]
  have h := claim10_memoised_idempotent env4r "x" ["x"] 2 0 hwf
  exact ⟨h.1 [⟨"x", []⟩] "x" (by decide), h.2 (by decide)⟩

/-! ### Aborting before the executor, and the worker budget -/

/-- C5: if loading the build file fails, or resolving the requested targets
fails, or solving the graph fails (a dependency cycle), the run aborts with
that error before any worker thread is spawned and before any task action is
invoked: the result carries zero spawned workers and an empty executor event
trace. -/
theorem claim5_abort_before_workers (lr : Except RunError Env) (env : Env) (fuel : Nat)
    (roots : List String) (jobs : Nat) (alwaysRun : Bool) (fresh : Task → Bool)
    (dry : Bool) (act : String → Bool) (choices : List Choice) :
    (∀ e, lr = Except.error e →
      runnerLoadAndRun lr fuel roots jobs alwaysRun fresh dry act choices
        = .aborted e) ∧
    (∀ e, (resolveAll env fuel Graph.nil roots).status = .err e →
      runEmbed env fuel roots jobs alwaysRun fresh dry act choices = .aborted e) ∧
    (∀ e, (resolveAll env fuel Graph.nil roots).status = .ok →
      (resolveAll env fuel Graph.nil roots).graph.solve (!alwaysRun) fresh
        = .error e →
      runEmbed env fuel roots jobs alwaysRun fresh dry act choices = .aborted e) ∧
    (∀ e : RunError, (RunResult.aborted e).spawnedWorkers = 0 ∧
      (RunResult.aborted e).events = []) := by
  refine ⟨?_, ?_, ?_, ?_⟩
  · intro e he
    rw [he]
    rfl
  · intro e he
    simp [runEmbed, he]
  · intro e hok hsol
    simp [runEmbed, hok, hsol]
  · intro e
    exact ⟨rfl, rfl⟩

/-- Witness registry with a two-task dependency cycle. -/
def envCyc : Env := ⟨[⟨"a", ["b"]⟩, ⟨"b", ["a"]⟩], []⟩

/-- Witness for C5: a load failure, an unknown root target, and a dependency
cycle each abort the run with the corresponding error. -/
theorem claim5_witness :
    runnerLoadAndRun (Except.error (RunError.loadFailure "bad")) 1 [] 1 true
      (fun _ => true) false (fun _ => true) []
      = .aborted (RunError.loadFailure "bad") ∧
    runEmbed env6 1 ["ghost"] 1 true (fun _ => true) false (fun _ => true) []
      = .aborted (RunError.unknownTask "ghost") ∧
    runEmbed envCyc 3 ["a"] 1 true (fun _ => true) false (fun _ => true) []
      = .aborted RunError.cycle ∧
    (RunResult.aborted RunError.cycle).spawnedWorkers = 0 ∧
    (RunResult.aborted RunError.cycle).events = [] := by
  have h1 := claim5_abort_before_workers (Except.error (RunError.loadFailure "bad"))
    env6 1 [] 1 true (fun _ => true) false (fun _ => true) []
  have h2 := claim5_abort_before_workers (Except.ok env6) env6 1 ["ghost"] 1 true
    (fun _ => true) false (fun _ => true) []
  have h3 := claim5_abort_before_workers (Except.ok envCyc) envCyc 3 ["a"] 1 true
    (fun _ => true) false (fun _ => true) []
  exact ⟨h1.1 _ rfl, h2.2.1 _ (by decide), h3.2.2.1 _ (by decide) (by decide),
    (h3.2.2.2 RunError.cycle).1, (h3.2.2.2 RunError.cycle).2⟩

lemma step_empty_id (ctx : MCtx) (hW : ctx.W = 0) (c : Choice) :
    step ctx (initState ctx []) c = initState ctx [] := by
  cases c with
  | wstart w => simp [step, workerStart, initState, hW]
  | wrun w => simp [step, workerRun, initState, hW]
  | citer pick sel => simp [step, coordIter, initState]

lemma runMachine_empty (ctx : MCtx) (hW : ctx.W = 0) (choices : List Choice) :
    runMachine ctx choices (initState ctx []) = initState ctx [] := by
  induction choices with
  | nil => rfl
  | cons c cs ih =>
    show List.foldl (step ctx) (step ctx (initState ctx []) c) cs = _
    rw [step_empty_id ctx hW c]
    exact ih

/-- C7: a run that reaches the executor spawns exactly
`min(jobs, |schedule|)` worker threads; with an empty schedule no worker is
spawned and the machine never moves; and the default job budget of
`Runner::new` is `max(1, cpu_count - 1)`. -/
theorem claim7_worker_count (env : Env) (fuel : Nat) (roots : List String) (jobs : Nat)
    (alwaysRun : Bool) (fresh : Task → Bool) (dry : Bool) (act : String → Bool)
    (choices : List Choice) (schedule : List Task) (cpus : Nat)
    (hres : (resolveAll env fuel Graph.nil roots).status = .ok)
    (hsol : (resolveAll env fuel Graph.nil roots).graph.solve (!alwaysRun) fresh
      = .ok schedule) :
    (runEmbed env fuel roots jobs alwaysRun fresh dry act choices).spawnedWorkers
      = min jobs schedule.length ∧
    (schedule = [] →
      runEmbed env fuel roots jobs alwaysRun fresh dry act choices
        = .executed 0 (initState (mkCtx env [] jobs dry act) [])) ∧
    defaultJobs cpus = max 1 (cpus - 1) := by
  refine ⟨?_, ?_, rfl⟩
  · simp [runEmbed, hres, hsol, RunResult.spawnedWorkers, mkCtx]
  · intro h
    subst h
    have hW : (mkCtx env [] jobs dry act).W = 0 := by simp [mkCtx]
    simp only [runEmbed, hres, hsol]
    rw [runMachine_empty _ hW choices, hW]

/-- Witness for C7: one task and three jobs spawns `min 3 1` workers; an
empty root set spawns none; the default budget for 8 CPUs is 7. -/
theorem claim7_witness :
    (runEmbed env4 2 ["n"] 3 true (fun _ => true) false (fun _ => true) []).spawnedWorkers
      = min 3 1 ∧
    runEmbed env6 1 [] 5 true (fun _ => true) false (fun _ => true) []
      = .executed 0 (initState (mkCtx env6 [] 5 false (fun _ => true)) []) ∧
    defaultJobs 8 = max 1 (8 - 1) := by
  have h1 := claim7_worker_count env4 2 ["n"] 3 true (fun _ => true) false (fun _ => true)
    [] [task4] 8 (by decide) (by decide)
  have h2 := claim7_worker_count env6 1 [] 5 true (fun _ => true) false (fun _ => true)
    [] [] 8 (by decide) (by decide)
  exact ⟨h1.1, h2.2.1 rfl, h1.2.2⟩

/-! ### Concrete executor runs exhibiting the two executor bugs -/

/-- Witness task with no dependencies. -/
def taskY : Task := ⟨"y", []⟩

/-- Witness task depending on `y`. -/
def taskZ : Task := ⟨"z", ["y"]⟩

/-- Registry containing `y` and `z` (where `z` depends on `y`). -/
def envYZ : Env := ⟨[taskY, taskZ], []⟩

/-- The schedule `[y, z]` (the topological order for requesting `z`). -/
def schedYZ : List Task := [taskY, taskZ]

/-- Executor context for `schedYZ` with 2 jobs, no dry-run, all actions
succeeding. -/
def ctxYZ : MCtx := mkCtx envYZ schedYZ 2 false (fun _ => true)

/-- The racy interleaving: both workers send their startup ready signals;
the coordinator receives worker 0's signal and dispatches `y` to worker 1;
then it receives worker 1's *startup* signal — indistinguishable from a
completion signal — marks `y` completed, and dispatches `z` to worker 0,
which executes `z` while worker 1 has not yet run `y`. -/
def choicesRace : List Choice :=
  [.wstart 0, .wstart 1, .citer 0 [1], .citer 0 [0], .wrun 0]

/-- C1 exhibit (a real interleaving of the source): `free_threads` is
pre-populated with every worker id before any startup signal is consumed
(runner.rs line 229), so the coordinator can dispatch a task to a worker
whose startup ready signal is still queued; on receiving that startup signal
it wrongly marks the worker's current task completed (lines 294-298).  In
this run, `z` is dispatched and its action invoked although its in-schedule
dependency `y` was never executed (no worker ever sent a post-execution
ready signal for `y`). -/
theorem claim1_startup_signal_race :
    "y" ∈ taskZ.dependencies ∧
    "y" ∈ ctxYZ.allTasks ∧
    Event.completedMark "y" ∈ (runMachine ctxYZ choicesRace (initState ctxYZ schedYZ)).trace ∧
    Event.dispatch "z" 2 0 ∈ (runMachine ctxYZ choicesRace (initState ctxYZ schedYZ)).trace ∧
    Event.invoked "z" ∈ (runMachine ctxYZ choicesRace (initState ctxYZ schedYZ)).trace ∧
    Event.invoked "y" ∉ (runMachine ctxYZ choicesRace (initState ctxYZ schedYZ)).trace := by
  decide

/-- Witness task whose action will fail in the C3 run. -/
def taskA : Task := ⟨"a", []⟩

/-- Registry containing only the task `a`. -/
def envA : Env := ⟨[taskA], []⟩

/-- An interleaving that runs the single scheduled task to (failed)
completion: worker 0 starts, the coordinator dispatches `a` to it (emptying
the schedule and ending the coordinator loop), the worker runs `a`, whose
action fails, and panics. -/
def choicesFail : List Choice := [.wstart 0, .citer 0 [0], .wrun 0]

/-- C3 exhibit: a scheduled task's action fails (the worker logs the error
and panics without sending a ready signal, runner.rs lines 265-268), yet
`Runner::run` still returns `Ok(())` — worker panics observed at `join` are
only trace-logged and no error is propagated (lines 343-351). -/
theorem claim3_action_failure_returns_ok :
    (runEmbed envA 2 ["a"] 1 true (fun _ => true) false (fun _ => false)
        choicesFail).returnValue = some (Except.ok ()) ∧
    Event.invoked "a" ∈ (runEmbed envA 2 ["a"] 1 true (fun _ => true) false
        (fun _ => false) choicesFail).events ∧
    Event.panicked 0 "a" ∈ (runEmbed envA 2 ["a"] 1 true (fun _ => true) false
        (fun _ => false) choicesFail).events := by
  decide

/-! ### List helpers for the executor invariant -/

lemma getD_mem {α : Type} {l : List α} {i : Nat} (h : i < l.length) (d : α) :
    l.getD i d ∈ l := by
  rw [List.getD_eq_getElem?_getD, List.getElem?_eq_getElem h]
  exact List.getElem_mem h

lemma getD_of_ge {α : Type} {l : List α} {i : Nat} (h : l.length ≤ i) (d : α) :
    l.getD i d = d := by
  rw [List.getD_eq_getElem?_getD, List.getElem?_eq_none h]
  rfl

lemma flatten_set_tail {α : Type} :
    ∀ (l : List (List α)) (w : Nat) (x : α) (rest : List α),
      w < l.length → l.getD w [] = x :: rest →
      (x :: (l.set w rest).flatten).Perm l.flatten := by
  intro l
  induction l with
  | nil => intro w x rest hw _; exact absurd hw (by simp)
  | cons a tl ih =>
    intro w x rest hw hget
    cases w with
    | zero =>
      rw [List.getD_cons_zero] at hget
      subst hget
      exact List.Perm.refl _
    | succ w' =>
      rw [List.getD_cons_succ] at hget
      have hw' : w' < tl.length := by simpa using hw
      have hperm := ih w' x rest hw' hget
      simp only [List.set_cons_succ, List.flatten_cons]
      exact List.perm_middle.symm.trans (List.Perm.append_left a hperm)

lemma flatten_set_snoc {α : Type} :
    ∀ (l : List (List α)) (w : Nat) (m : α), w < l.length →
      ((l.set w (l.getD w [] ++ [m])).flatten).Perm (l.flatten ++ [m]) := by
  intro l
  induction l with
  | nil => intro w m hw; exact absurd hw (by simp)
  | cons a tl ih =>
    intro w m hw
    cases w with
    | zero =>
      rw [List.getD_cons_zero]
      simp only [List.set_cons_zero, List.flatten_cons, List.append_assoc]
      exact List.Perm.append_left a List.perm_append_comm
    | succ w' =>
      rw [List.getD_cons_succ]
      have hw' : w' < tl.length := by simpa using hw
      have hperm := ih w' m hw'
      simp only [List.set_cons_succ, List.flatten_cons, List.append_assoc]
      exact List.Perm.append_left a (by simpa [List.append_assoc] using hperm)

lemma mem_flatten_getD {α : Type} {l : List (List α)} {w : Nat} (hw : w < l.length)
    {x : α} {rest : List α} (h : l.getD w [] = x :: rest) : x ∈ l.flatten := by
  have hmem : (x :: rest) ∈ l := by
    rw [← h]
    exact getD_mem hw []
  exact List.mem_flatten.mpr ⟨x :: rest, hmem, List.mem_cons_self x rest⟩

/-- Expected dispatch records for a consumed prefix: the k-th consumed task
(1-based, counting from `i + 1`) is dispatched with index `i + k`. -/
def enum1 : List Task → Nat → List (String × Nat)
  | [], _ => []
  | t :: ts, i => (t.name, i + 1) :: enum1 ts (i + 1)

lemma enum1_append_one (ds : List Task) (t : Task) :
    ∀ i, enum1 (ds ++ [t]) i = enum1 ds i ++ [(t.name, i + ds.length + 1)] := by
  induction ds with
  | nil => intro i; rfl
  | cons u us ih =>
    intro i
    have hidx : i + 1 + us.length + 1 = i + (u :: us).length + 1 := by
      simp only [List.length_cons]
      omega
    calc enum1 ((u :: us) ++ [t]) i
        = (u.name, i + 1) :: enum1 (us ++ [t]) (i + 1) := rfl
      _ = (u.name, i + 1) :: (enum1 us (i + 1) ++ [(t.name, i + 1 + us.length + 1)]) := by
          rw [ih (i + 1)]
      _ = enum1 (u :: us) i ++ [(t.name, i + (u :: us).length + 1)] := by rw [hidx]; rfl

lemma enum1_fst (ds : List Task) :
    ∀ i, (enum1 ds i).map Prod.fst = ds.map (fun t => t.name) := by
  induction ds with
  | nil => intro i; rfl
  | cons u us ih => intro i; simp [enum1, ih (i + 1)]

lemma enum1_snd (ds : List Task) :
    ∀ i, (enum1 ds i).map Prod.snd = List.range' (i + 1) ds.length := by
  induction ds with
  | nil => intro i; rfl
  | cons u us ih =>
    intro i
    simp only [enum1, List.map_cons, ih (i + 1), List.length_cons, List.range'_succ]

/-! ### The executor invariant -/

/-- Hypotheses of a healthy run: every scheduled task's action succeeds and
its worker-side lookup finds a task, and `task_count` is the schedule
length (as `Runner::run` sets it). -/
structure Healthy (ctx : MCtx) (sched₀ : List Task) : Prop where
  act_ok : ∀ t ∈ sched₀, ctx.act t.name = true
  lookup_ok : ∀ t ∈ sched₀, (workerLookup ctx.env t.name).isFound = true
  total_eq : ctx.total = sched₀.length

/-- The executor invariant: the remaining schedule is a suffix of the
original; the dispatch events enumerate the consumed prefix with indices
1, 2, …; the progress lines plus the still-queued work messages are a
permutation of the dispatches; invocations match progress lines (or are
absent in dry-run); progress totals are `task_count`; and the bookkeeping
lists are well-formed. -/
structure Inv (ctx : MCtx) (sched₀ : List Task) (s : MState) : Prop where
  dispatched : ∃ done, sched₀ = done ++ s.schedule ∧
    dispatchesOf s.trace = enum1 done 0
  perm : (progressesOf s.trace ++ inboxJoin s).Perm (dispatchesOf s.trace)
  inv_invoked : ctx.dry = false →
    (invokedOf s.trace).Perm ((progressesOf s.trace).map Prod.fst)
  inv_dry : ctx.dry = true → invokedOf s.trace = []
  totals : ∀ i tot m, Event.progress i tot m ∈ s.trace → tot = ctx.total
  inbox_len : s.inbox.length = ctx.W
  started_len : s.started.length = ctx.W
  alive_len : s.alive.length = ctx.W
  alive_true : ∀ w, w < ctx.W → s.alive.getD w false = true
  free_lt : ∀ w ∈ s.free, w < ctx.W
  chan_lt : ∀ w ∈ s.chan, w < ctx.W

lemma dispatchesOf_append (l₁ l₂ : List Event) :
    dispatchesOf (l₁ ++ l₂) = dispatchesOf l₁ ++ dispatchesOf l₂ :=
  List.filterMap_append l₁ l₂ dispatchKey

lemma progressesOf_append (l₁ l₂ : List Event) :
    progressesOf (l₁ ++ l₂) = progressesOf l₁ ++ progressesOf l₂ :=
  List.filterMap_append l₁ l₂ progressKey

lemma invokedOf_append (l₁ l₂ : List Event) :
    invokedOf (l₁ ++ l₂) = invokedOf l₁ ++ invokedOf l₂ :=
  List.filterMap_append l₁ l₂ invokedKey

lemma flatten_replicate_nil {α : Type} : ∀ n, (List.replicate n ([] : List α)).flatten = [] := by
  intro n
  induction n with
  | zero => rfl
  | succ n ih => simpa [List.replicate, List.flatten_cons] using ih

lemma getD_replicate {α : Type} {a d : α} {n i : Nat} (h : i < n) :
    (List.replicate n a).getD i d = a := by
  rw [List.getD_eq_getElem?_getD, List.getElem?_replicate]
  simp [h]

/-- Invariant preservation for a worker's startup step. -/
lemma inv_workerStart (ctx : MCtx) (sched₀ : List Task) (s : MState) (w : Nat)
    (h : Inv ctx sched₀ s) : Inv ctx sched₀ (workerStart s w) := by
  unfold workerStart
  by_cases hs : s.started.getD w true = true
  · rw [if_pos hs]
    exact h
  · rw [if_neg hs]
    have hw : w < ctx.W := by
      by_contra hge
      push_neg at hge
      rw [← h.started_len] at hge
      rw [getD_of_ge hge] at hs
      exact hs rfl
    refine ⟨h.dispatched, h.perm, h.inv_invoked, h.inv_dry, h.totals, h.inbox_len, ?_,
      h.alive_len, h.alive_true, h.free_lt, ?_⟩
    · simp [List.length_set, h.started_len]
    · intro w' hw'
      rcases List.mem_append.mp hw' with h1 | h2
      · exact h.chan_lt w' h1
      · simp only [List.mem_singleton] at h2
        exact h2 ▸ hw

/-- Invariant preservation for one processed work-channel message: the state
produced by a worker that pops `(name, idx)`, prints the progress line, emits
one further non-progress, non-dispatch event `ev2` (the dry-run log line or
the action invocation), and sends its ready signal. -/
lemma inv_msg_step (ctx : MCtx) (sched₀ : List Task) (s : MState) (w : Nat)
    (name : String) (idx : Nat) (rest : List (String × Nat)) (ev2 : Event)
    (h : Inv ctx sched₀ s)
    (hw : w < ctx.W)
    (hib : s.inbox.getD w [] = (name, idx) :: rest)
    (hdk : dispatchKey ev2 = none)
    (hpk : progressKey ev2 = none)
    (hik : invokedKey ev2 = if ctx.dry = true then none else some name)
    (hnp : ∀ i tot m, ev2 ≠ Event.progress i tot m) :
    Inv ctx sched₀
      { s with
        inbox := s.inbox.set w rest
        trace := (s.trace ++ [Event.progress idx ctx.total name]) ++ [ev2]
        chan := s.chan ++ [w] } := by
  obtain ⟨done, hdone, hdisp⟩ := h.dispatched
  have hwib : w < s.inbox.length := by rw [h.inbox_len]; exact hw
  have htail := flatten_set_tail s.inbox w (name, idx) rest hwib hib
  have hDev2 : dispatchesOf [ev2] = [] := by
    simp [dispatchesOf, List.filterMap_cons, hdk]
  have hPev2 : progressesOf [ev2] = [] := by
    simp [progressesOf, List.filterMap_cons, hpk]
  have hD : dispatchesOf ((s.trace ++ [Event.progress idx ctx.total name]) ++ [ev2])
      = dispatchesOf s.trace := by
    rw [dispatchesOf_append, dispatchesOf_append, hDev2]
    rw [show dispatchesOf [Event.progress idx ctx.total name] = [] from rfl]
    rw [List.append_nil, List.append_nil]
  have hP : progressesOf ((s.trace ++ [Event.progress idx ctx.total name]) ++ [ev2])
      = progressesOf s.trace ++ [(name, idx)] := by
    rw [progressesOf_append, progressesOf_append, hPev2]
    rw [show progressesOf [Event.progress idx ctx.total name] = [(name, idx)] from rfl]
    rw [List.append_nil]
  refine ⟨⟨done, hdone, by rw [hD]; exact hdisp⟩, ?_, ?_, ?_, ?_, ?_, ?_, ?_, ?_, ?_, ?_⟩
  · rw [hD, hP]
    show ((progressesOf s.trace ++ [(name, idx)]) ++ (s.inbox.set w rest).flatten).Perm
      (dispatchesOf s.trace)
    rw [List.append_assoc]
    exact (List.Perm.append_left _ htail).trans h.perm
  · intro hdry
    rw [hP]
    have hik' : invokedKey ev2 = some name := by
      rw [hik, hdry]
      simp
    have hIev2 : invokedOf [ev2] = [name] := by
      simp [invokedOf, List.filterMap_cons, hik']
    have hI : invokedOf ((s.trace ++ [Event.progress idx ctx.total name]) ++ [ev2])
        = invokedOf s.trace ++ [name] := by
      rw [invokedOf_append, invokedOf_append, hIev2]
      rw [show invokedOf [Event.progress idx ctx.total name] = [] from rfl]
      rw [List.append_nil]
    rw [hI, List.map_append]
    exact (h.inv_invoked hdry).append (List.Perm.refl _)
  · intro hdry
    have hik' : invokedKey ev2 = none := by
      rw [hik, hdry]
      simp
    have hIev2 : invokedOf [ev2] = [] := by
      simp [invokedOf, List.filterMap_cons, hik']
    have hI : invokedOf ((s.trace ++ [Event.progress idx ctx.total name]) ++ [ev2])
        = invokedOf s.trace := by
      rw [invokedOf_append, invokedOf_append, hIev2]
      rw [show invokedOf [Event.progress idx ctx.total name] = [] from rfl]
      simp
    rw [hI]
    exact h.inv_dry hdry
  · intro i tot m hm
    simp only [List.mem_append, List.mem_singleton] at hm
    rcases hm with (hm | hm) | hm
    · exact h.totals i tot m hm
    · injection hm with h1 h2 h3
    · exact absurd hm.symm (hnp i tot m)
  · simp [List.length_set, h.inbox_len]
  · exact h.started_len
  · exact h.alive_len
  · exact h.alive_true
  · exact h.free_lt
  · intro w' hw'
    rcases List.mem_append.mp hw' with h1 | h2
    · exact h.chan_lt w' h1
    · simp only [List.mem_singleton] at h2
      exact h2 ▸ hw

/-- Invariant preservation for the worker's message-processing step. -/
lemma inv_workerRun (ctx : MCtx) (sched₀ : List Task) (hH : Healthy ctx sched₀)
    (s : MState) (w : Nat) (h : Inv ctx sched₀ s) : Inv ctx sched₀ (workerRun ctx w s) := by
  unfold workerRun
  split
  case isFalse => exact h
  case isTrue hg =>
    have hstarted : s.started.getD w false = true := by
      cases hb : s.started.getD w false
      · rw [hb] at hg
        simp at hg
      · rfl
    have hw : w < ctx.W := by
      by_contra hge
      push_neg at hge
      rw [← h.started_len] at hge
      rw [getD_of_ge hge] at hstarted
      exact Bool.noConfusion hstarted
    split
    case h_1 => exact h
    case h_2 name idx rest hib =>
      have hmsg : (name, idx) ∈ inboxJoin s :=
        mem_flatten_getD (by rw [h.inbox_len]; exact hw) hib
      have hmem2 : (name, idx) ∈ dispatchesOf s.trace :=
        (h.perm.mem_iff).mp (List.mem_append_right _ hmsg)
      obtain ⟨done, hdone, hdisp⟩ := h.dispatched
      obtain ⟨t0, ht0, ht0n⟩ : ∃ t ∈ sched₀, t.name = name := by
        rw [hdisp] at hmem2
        have h3 : name ∈ (enum1 done 0).map Prod.fst :=
          List.mem_map.mpr ⟨(name, idx), hmem2, rfl⟩
        rw [enum1_fst] at h3
        obtain ⟨t, ht, hteq⟩ := List.mem_map.mp h3
        exact ⟨t, by rw [hdone]; exact List.mem_append_left _ ht, hteq⟩
      have hlkf := hH.lookup_ok t0 ht0
      rw [ht0n] at hlkf
      have hact := hH.act_ok t0 ht0
      rw [ht0n] at hact
      split
      case h_1 task hlk =>
        by_cases hdry : ctx.dry = true
        · rw [if_pos hdry]
          exact inv_msg_step ctx sched₀ s w name idx rest (Event.wouldRun task.name) h hw hib
            rfl rfl (by simp [invokedKey, hdry]) (fun i tot m => by simp)
        · have hdry' : ctx.dry = false := by
            cases hb : ctx.dry
            · rfl
            · exact absurd hb hdry
          rw [if_neg hdry, if_pos hact]
          exact inv_msg_step ctx sched₀ s w name idx rest (Event.invoked name) h hw hib
            rfl rfl (by simp [invokedKey, hdry']) (fun i tot m => by simp)
      case h_2 hlk =>
        rw [hlk] at hlkf
        exact absurd hlkf (by simp [LookupResult.isFound])
      case h_3 hlk =>
        rw [hlk] at hlkf
        exact absurd hlkf (by simp [LookupResult.isFound])

/-- Invariant preservation for one dispatch: the coordinator pops the front
task (whose in-schedule dependencies are satisfied), sends it to free worker
`w`, and records the dispatch. -/
lemma inv_dispatch_step (ctx : MCtx) (sched₀ : List Task) (hH : Healthy ctx sched₀)
    (s : MState) (front : Task) (rest : List Task) (w : Nat)
    (hsch : s.schedule = front :: rest) (hw : w < ctx.W)
    (h : Inv ctx sched₀ s) :
    Inv ctx sched₀
      { s with
        schedule := rest
        inbox := s.inbox.set w
          ((s.inbox.getD w []) ++ [(front.name, ctx.total - rest.length)])
        current := s.current.set w (some front.name)
        free := s.free.erase w
        trace := s.trace ++
          [Event.dispatch front.name (ctx.total - rest.length) w] } := by
  obtain ⟨done, hdone, hdisp⟩ := h.dispatched
  have hwib : w < s.inbox.length := by rw [h.inbox_len]; exact hw
  have hsnoc := flatten_set_snoc s.inbox w (front.name, ctx.total - rest.length) hwib
  have hidx : ctx.total - rest.length = 0 + done.length + 1 := by
    have h1 := hH.total_eq
    have h2 : sched₀.length = done.length + (front :: rest).length := by
      rw [hdone, hsch, List.length_append]
    simp only [List.length_cons] at h2
    omega
  have hD : dispatchesOf (s.trace ++
        [Event.dispatch front.name (ctx.total - rest.length) w])
      = enum1 (done ++ [front]) 0 := by
    rw [dispatchesOf_append, hdisp, enum1_append_one]
    rw [show dispatchesOf [Event.dispatch front.name (ctx.total - rest.length) w]
      = [(front.name, ctx.total - rest.length)] from rfl]
    rw [hidx]
  have hP : progressesOf (s.trace ++
        [Event.dispatch front.name (ctx.total - rest.length) w])
      = progressesOf s.trace := by
    rw [progressesOf_append]
    rw [show progressesOf [Event.dispatch front.name (ctx.total - rest.length) w]
      = [] from rfl]
    simp
  have hI : invokedOf (s.trace ++
        [Event.dispatch front.name (ctx.total - rest.length) w])
      = invokedOf s.trace := by
    rw [invokedOf_append]
    rw [show invokedOf [Event.dispatch front.name (ctx.total - rest.length) w]
      = [] from rfl]
    simp
  refine ⟨⟨done ++ [front], ?_, hD⟩, ?_, ?_, ?_, ?_, ?_, ?_, ?_, ?_, ?_, ?_⟩
  · rw [hdone, hsch, List.append_assoc]
    rfl
  · rw [hP, hD, enum1_append_one, ← hdisp, ← hidx]
    show (progressesOf s.trace ++
      (s.inbox.set w ((s.inbox.getD w []) ++
        [(front.name, ctx.total - rest.length)])).flatten).Perm _
    refine List.Perm.trans (List.Perm.append_left _ hsnoc) ?_
    rw [← List.append_assoc]
    exact List.Perm.append h.perm (List.Perm.refl _)
  · intro hdry
    rw [hI, hP]
    exact h.inv_invoked hdry
  · intro hdry
    rw [hI]
    exact h.inv_dry hdry
  · intro i tot m hm
    rcases List.mem_append.mp hm with h1 | h2
    · exact h.totals i tot m h1
    · simp only [List.mem_singleton] at h2
      exact absurd h2 (by simp)
  · simp [List.length_set, h.inbox_len]
  · exact h.started_len
  · exact h.alive_len
  · exact h.alive_true
  · intro w' hw'
    exact h.free_lt w' (List.erase_subset _ _ hw')
  · exact h.chan_lt

/-- Invariant preservation for the inner dispatch loop, provided the
iteration budget does not exceed the number of free workers (as it never
does in `Runner::run`, where the budget is `free_threads.len()`). -/
lemma inv_dispatchLoop (ctx : MCtx) (sched₀ : List Task) (hH : Healthy ctx sched₀) :
    ∀ (count : Nat) (sel : List Nat) (s : MState), Inv ctx sched₀ s →
      count ≤ s.free.length → Inv ctx sched₀ (dispatchLoop ctx count sel s) := by
  intro count
  induction count with
  | zero => intro sel s h _; exact h
  | succ c ih =>
    intro sel s h hcount
    unfold dispatchLoop
    split
    case h_1 => exact h
    case h_2 front rest hsch =>
      split
      case isTrue => exact h
      case isFalse hdep =>
        split
        case isTrue hemp =>
          rw [List.isEmpty_iff] at hemp
          rw [hemp] at hcount
          simp at hcount
        case isFalse hemp =>
          have hfne : s.free ≠ [] := by
            intro hh
            rw [hh] at hemp
            exact hemp rfl
          have hflen : 0 < s.free.length := List.length_pos.mpr hfne
          have hwmem : s.free.getD ((sel.headD 0) % s.free.length) 0 ∈ s.free :=
            getD_mem (Nat.mod_lt _ hflen) 0
          have hwlt : s.free.getD ((sel.headD 0) % s.free.length) 0 < ctx.W :=
            h.free_lt _ hwmem
          have halive := h.alive_true _ hwlt
          rw [if_pos halive]
          refine ih sel.tail _ (inv_dispatch_step ctx sched₀ hH s front rest _ hsch hwlt h) ?_
          show c ≤ (s.free.erase _).length
          rw [List.length_erase_of_mem hwmem]
          omega

/-- Invariant preservation for one coordinator iteration. -/
lemma inv_coordIter (ctx : MCtx) (sched₀ : List Task) (hH : Healthy ctx sched₀)
    (pick : Nat) (sel : List Nat) (s : MState) (h : Inv ctx sched₀ s) :
    Inv ctx sched₀ (coordIter ctx pick sel s) := by
  unfold coordIter
  split
  case isTrue => exact h
  case isFalse hsch =>
    split
    case isTrue => exact h
    case isFalse hch =>
      have hchne : s.chan ≠ [] := by
        intro hh
        rw [hh] at hch
        exact hch rfl
      have hclen : 0 < s.chan.length := List.length_pos.mpr hchne
      have hwidmem : s.chan.getD (pick % s.chan.length) 0 ∈ s.chan :=
        getD_mem (Nat.mod_lt _ hclen) 0
      have hwid : s.chan.getD (pick % s.chan.length) 0 < ctx.W :=
        h.chan_lt _ hwidmem
      have hfree' : ∀ w' ∈ insertFree s.free (s.chan.getD (pick % s.chan.length) 0),
          w' < ctx.W := by
        intro w' hw'
        unfold insertFree at hw'
        by_cases hc : s.free.contains (s.chan.getD (pick % s.chan.length) 0)
        · rw [if_pos hc] at hw'
          exact h.free_lt w' hw'
        · rw [if_neg hc] at hw'
          rcases List.mem_append.mp hw' with h1 | h2
          · exact h.free_lt w' h1
          · simp only [List.mem_singleton] at h2
            exact h2 ▸ hwid
      have hchan' : ∀ w' ∈ s.chan.eraseIdx (pick % s.chan.length), w' < ctx.W :=
        fun w' hw' => h.chan_lt w' (List.eraseIdx_subset _ _ hw')
      split
      case h_1 t hcur =>
        have hD : dispatchesOf (s.trace ++ [Event.completedMark t])
            = dispatchesOf s.trace := by
          rw [dispatchesOf_append]
          simp [dispatchesOf, List.filterMap_cons, dispatchKey]
        have hP : progressesOf (s.trace ++ [Event.completedMark t])
            = progressesOf s.trace := by
          rw [progressesOf_append]
          simp [progressesOf, List.filterMap_cons, progressKey]
        have hI : invokedOf (s.trace ++ [Event.completedMark t])
            = invokedOf s.trace := by
          rw [invokedOf_append]
          simp [invokedOf, List.filterMap_cons, invokedKey]
        refine inv_dispatchLoop ctx sched₀ hH _ sel _ ?_ (le_refl _)
        refine ⟨?_, ?_, ?_, ?_, ?_, h.inbox_len, h.started_len, h.alive_len,
          h.alive_true, hfree', hchan'⟩
        · obtain ⟨done, hdone, hdisp⟩ := h.dispatched
          exact ⟨done, hdone, by rw [hD]; exact hdisp⟩
        · rw [hD, hP]
          exact h.perm
        · intro hdry
          rw [hI, hP]
          exact h.inv_invoked hdry
        · intro hdry
          rw [hI]
          exact h.inv_dry hdry
        · intro i tot m hm
          rcases List.mem_append.mp hm with h1 | h2
          · exact h.totals i tot m h1
          · simp only [List.mem_singleton] at h2
            exact absurd h2 (by simp)
      case h_2 hcur =>
        refine inv_dispatchLoop ctx sched₀ hH _ sel _ ?_ (le_refl _)
        exact ⟨h.dispatched, h.perm, h.inv_invoked, h.inv_dry, h.totals, h.inbox_len,
          h.started_len, h.alive_len, h.alive_true, hfree', hchan'⟩

/-- Invariant preservation for any single scheduling decision. -/
lemma inv_step (ctx : MCtx) (sched₀ : List Task) (hH : Healthy ctx sched₀)
    (s : MState) (c : Choice) (h : Inv ctx sched₀ s) : Inv ctx sched₀ (step ctx s c) := by
  cases c with
  | wstart w => exact inv_workerStart ctx sched₀ s w h
  | wrun w => exact inv_workerRun ctx sched₀ hH s w h
  | citer pick sel => exact inv_coordIter ctx sched₀ hH pick sel s h

/-- Invariant preservation along any interleaving. -/
lemma inv_runMachine (ctx : MCtx) (sched₀ : List Task) (hH : Healthy ctx sched₀) :
    ∀ (choices : List Choice) (s : MState), Inv ctx sched₀ s →
      Inv ctx sched₀ (runMachine ctx choices s) := by
  intro choices
  induction choices with
  | nil => intro s h; exact h
  | cons c cs ih =>
    intro s h
    show Inv ctx sched₀ (List.foldl (step ctx) (step ctx s c) cs)
    exact ih (step ctx s c) (inv_step ctx sched₀ hH s c h)

/-- The invariant holds initially. -/
lemma inv_init (ctx : MCtx) (sched₀ : List Task) :
    Inv ctx sched₀ (initState ctx sched₀) := by
  refine ⟨⟨[], rfl, rfl⟩, ?_, ?_, ?_, ?_, ?_, ?_, ?_, ?_, ?_, ?_⟩
  · show (progressesOf [] ++ (List.replicate ctx.W ([] : List (String × Nat))).flatten).Perm
      (dispatchesOf [])
    rw [flatten_replicate_nil]
    exact List.Perm.refl _
  · intro _
    exact List.Perm.refl _
  · intro _
    rfl
  · intro i tot m hm
    exact absurd hm (List.not_mem_nil _)
  · exact List.length_replicate ctx.W []
  · exact List.length_replicate ctx.W false
  · exact List.length_replicate ctx.W true
  · intro w hw
    exact getD_replicate hw
  · intro w hw
    exact List.mem_range.mp hw
  · intro w hw
    exact absurd hw (List.not_mem_nil _)

/-- The executor part of `Runner::run` applied to a solved schedule: the
context built at runner.rs lines 210-211/286 and the coordinator/worker
machine run from the spawn-time initial state. -/
def execRun (env : Env) (schedule : List Task) (jobs : Nat) (dry : Bool)
    (act : String → Bool) (choices : List Choice) : MState :=
  runMachine (mkCtx env schedule jobs dry act) choices
    (initState (mkCtx env schedule jobs dry act) schedule)

/-- C2: in a run over a valid build file — every scheduled task's action
succeeds and resolves in the worker, and the run completes (the schedule
was fully dispatched and every work channel drained) — each scheduled
task's action is invoked exactly once, for every interleaving; with the
dry-run flag set, no action is ever invoked, also for every
interleaving. -/
theorem claim2_exactly_once (env : Env) (schedule : List Task) (jobs : Nat)
    (dry : Bool) (act : String → Bool) (choices : List Choice)
    (hnodup : (schedule.map (fun t => t.name)).Nodup)
    (hact : ∀ t ∈ schedule, act t.name = true)
    (hlk : ∀ t ∈ schedule, (workerLookup env t.name).isFound = true)
    (hsched : (execRun env schedule jobs dry act choices).schedule = [])
    (hdrain : inboxJoin (execRun env schedule jobs dry act choices) = []) :
    (dry = false → ∀ t ∈ schedule,
      (invokedOf (execRun env schedule jobs dry act choices).trace).count t.name = 1) ∧
    (dry = true → invokedOf (execRun env schedule jobs dry act choices).trace = []) := by
  have hH : Healthy (mkCtx env schedule jobs dry act) schedule := ⟨hact, hlk, rfl⟩
  have hInv : Inv (mkCtx env schedule jobs dry act) schedule
      (execRun env schedule jobs dry act choices) :=
    inv_runMachine _ _ hH choices _ (inv_init _ _)
  obtain ⟨done, hd1, hd2⟩ := hInv.dispatched
  rw [hsched] at hd1
  have hdone_eq : done = schedule := by
    rw [hd1]
    simp
  rw [hdone_eq] at hd2
  have hpermPD : (progressesOf (execRun env schedule jobs dry act choices).trace).Perm
      (dispatchesOf (execRun env schedule jobs dry act choices).trace) := by
    have hp := hInv.perm
    rw [hdrain, List.append_nil] at hp
    exact hp
  have hDnames : (dispatchesOf (execRun env schedule jobs dry act choices).trace).map
      Prod.fst = schedule.map (fun t => t.name) := by
    rw [hd2, enum1_fst]
  constructor
  · intro hdry t ht
    have hinv := hInv.inv_invoked hdry
    have h5 : ((dispatchesOf (execRun env schedule jobs dry act choices).trace).map
        Prod.fst).Perm (schedule.map (fun t => t.name)) := by
      rw [hDnames]
    have hfinal := hinv.trans ((hpermPD.map Prod.fst).trans h5)
    rw [List.Perm.count_eq hfinal t.name]
    exact List.count_eq_one_of_mem hnodup (List.mem_map.mpr ⟨t, ht, rfl⟩)
  · intro hdry
    exact hInv.inv_dry hdry

/-- The interleaving used by the executor witnesses: the single worker
starts, receives the single task, and runs it. -/
def choicesOk : List Choice := [.wstart 0, .citer 0 [0], .wrun 0]

/-- Witness for C2 on a concrete completed run with one task. -/
theorem claim2_witness :
    (invokedOf (execRun envA [taskA] 1 false (fun _ => true) choicesOk).trace).count "a"
      = 1 := by
  have h := claim2_exactly_once envA [taskA] 1 false (fun _ => true) choicesOk
    (by decide) (by decide) (by decide) (by decide) (by decide)
  exact h.1 rfl taskA (by decide)

/-- C8: in a completed run, the k-th dispatched task is sent (and printed)
with progress index k: the dispatch events enumerate the schedule in order
with indices 1, 2, …, N; exactly one progress line is printed per
dispatched task, carrying the same name and index and the total N; hence
the printed indices are 1..N, each exactly once, following dispatch
order. -/
theorem claim8_progress_indices (env : Env) (schedule : List Task) (jobs : Nat)
    (dry : Bool) (act : String → Bool) (choices : List Choice)
    (hact : ∀ t ∈ schedule, act t.name = true)
    (hlk : ∀ t ∈ schedule, (workerLookup env t.name).isFound = true)
    (hsched : (execRun env schedule jobs dry act choices).schedule = [])
    (hdrain : inboxJoin (execRun env schedule jobs dry act choices) = []) :
    dispatchesOf (execRun env schedule jobs dry act choices).trace = enum1 schedule 0 ∧
    (progressesOf (execRun env schedule jobs dry act choices).trace).Perm
      (enum1 schedule 0) ∧
    (∀ i tot m, Event.progress i tot m ∈
        (execRun env schedule jobs dry act choices).trace → tot = schedule.length) ∧
    ((progressesOf (execRun env schedule jobs dry act choices).trace).map
      Prod.snd).Perm (List.range' 1 schedule.length) := by
  have hH : Healthy (mkCtx env schedule jobs dry act) schedule := ⟨hact, hlk, rfl⟩
  have hInv : Inv (mkCtx env schedule jobs dry act) schedule
      (execRun env schedule jobs dry act choices) :=
    inv_runMachine _ _ hH choices _ (inv_init _ _)
  obtain ⟨done, hd1, hd2⟩ := hInv.dispatched
  rw [hsched] at hd1
  have hdone_eq : done = schedule := by
    rw [hd1]
    simp
  rw [hdone_eq] at hd2
  have hpermPD : (progressesOf (execRun env schedule jobs dry act choices).trace).Perm
      (dispatchesOf (execRun env schedule jobs dry act choices).trace) := by
    have hp := hInv.perm
    rw [hdrain, List.append_nil] at hp
    exact hp
  refine ⟨hd2, ?_, ?_, ?_⟩
  · rw [← hd2]
    exact hpermPD
  · intro i tot m hm
    exact hInv.totals i tot m hm
  · have h6 : ((dispatchesOf (execRun env schedule jobs dry act choices).trace).map
        Prod.snd).Perm (List.range' 1 schedule.length) := by
      rw [hd2, enum1_snd]
    exact (hpermPD.map Prod.snd).trans h6

/-- Witness for C8 on the same concrete completed run. -/
theorem claim8_witness :
    dispatchesOf (execRun envA [taskA] 1 false (fun _ => true) choicesOk).trace
      = enum1 [taskA] 0 ∧
    ((progressesOf (execRun envA [taskA] 1 false (fun _ => true) choicesOk).trace).map
      Prod.snd).Perm (List.range' 1 1) := by
  have h := claim8_progress_indices envA [taskA] 1 false (fun _ => true) choicesOk
    (by decide) (by decide) (by decide) (by decide)
  exact ⟨h.1, h.2.2.2⟩

end Rote
